import Mathlib

/-!
Reminders: a shallow embedding of `main.go`.

The program keeps a registry `rems : map[int]Rem` with a counter `curIndex`,
persists it to one text file, and runs a command loop.  This file embeds the
functions of `main.go` as Lean definitions and proves properties of them.

Conventions of the embedding.

* A Go `string` is a sequence of bytes: `Str := List Nat`, each element the
  numeric value of one byte.
* A `time.Time` is represented by what the program observes of it: the
  calendar fields `Year()`, `Month()`, `Day()` in the value's own location,
  the time elapsed since that day's midnight, and the clock changes of the
  location, which decide the date that `Add` arrives at.
* `time.Now()` is a parameter `now` of every function that reads the clock.
* The registry `map[int]Rem` is a list of `(id, Rem)` entries with pairwise
  distinct ids; the order in which Go iterates over a map is a parameter
  `iter` wherever the program ranges over the map without sorting.
* The store file is represented by its content; opening and writing succeed.
* An `int` has 64 bits.  The counter `curIndex` is incremented without
  overflow: a session adds fewer than 2^63 reminders.
-/

namespace Reminders

/-! ## Strings -/

/-- A Go string: its bytes, each as a number. -/
abbrev Str := List Nat

/-- The bytes of an ASCII text literal. -/
def ascii (s : String) : Str := s.toList.map Char.toNat

/-- The byte `'\t'`. -/
abbrev TAB : Nat := 9
/-- The byte `'\n'`. -/
abbrev NL : Nat := 10
/-- The byte `'\r'`. -/
abbrev CR : Nat := 13
/-- The byte `'-'`. -/
abbrev DASH : Nat := 45
/-- The byte `'@'`. -/
abbrev AT : Nat := 64

/-- Whether a byte is one of `'0'` .. `'9'`. -/
def isDigitByte (c : Nat) : Bool := decide (48 ≤ c) && decide (c ≤ 57)

/-- The helper `isDigit(s, i)` of package `time`: byte `i` exists and is a digit. -/
def isDigit (s : Str) (i : Nat) : Bool :=
  match s.get? i with
  | some c => isDigitByte c
  | none => false

/-- The call `strings.HasPrefix(s, p)`. -/
def HasPrefix (s p : Str) : Bool := p.isPrefixOf s

/-- The call `strings.Split(s, sep)` for a one-byte separator: the fields
between occurrences of `sep`; always at least one field. -/
def Split (s : Str) (sep : Nat) : List Str :=
  match s with
  | [] => [[]]
  | c :: rest =>
    if c = sep then [] :: Split rest sep
    else
      match Split rest sep with
      | [] => [[c]]
      | f :: fs => (c :: f) :: fs

/-- The call `strings.Replace(s, old, "", 1)` for a non-empty `old`: the
leftmost occurrence of `old` is removed. -/
def ReplaceFirst (s old : Str) : Str :=
  match s with
  | [] => []
  | c :: rest =>
    if old.isPrefixOf (c :: rest) then (c :: rest).drop old.length
    else c :: ReplaceFirst rest old

/-- The value a run of decimal digits denotes. -/
def decimalValue (s : Str) : Nat := s.foldl (fun acc c => acc * 10 + (c - 48)) 0

/-- The largest `int` (64-bit). -/
def maxInt : Int := 9223372036854775807

/-- The call `strconv.Atoi(s)`: the value and whether the error is nil.  An
optional sign is followed by one or more digits; a syntax error gives 0, a
value out of the `int` range gives the nearest bound together with an error. -/
def Atoi (s : Str) : Int × Bool :=
  let neg : Bool := s.head? == some DASH
  let body : Str := if s.head? == some DASH || s.head? == some 43 then s.tail else s
  if body.isEmpty then (0, false)
  else if !body.all isDigitByte then (0, false)
  else
    let n := decimalValue body
    if neg then
      if n > 9223372036854775808 then (-9223372036854775808, false) else (-(n : Int), true)
    else
      if n ≥ 9223372036854775808 then (maxInt, false) else ((n : Int), true)

/-- The call `regexp.MustCompile("r(\\d+)").FindStringSubmatch(s)`, reduced to
its group 1: at the leftmost `r` that is directly followed by a digit, the
longest run of digits after it; `none` when the pattern matches nowhere. -/
def FindStringSubmatch (s : Str) : Option Str :=
  match s with
  | [] => none
  | c :: rest =>
    if c = 114 ∧ isDigit rest 0 = true then some (rest.takeWhile isDigitByte)
    else FindStringSubmatch rest

/-- Decimal digits of a number, most significant first, with recursion fuel. -/
def utodAux : Nat → Nat → Str
  | 0, _ => []
  | fuel + 1, n =>
    if n < 10 then [48 + n] else utodAux fuel (n / 10) ++ [48 + n % 10]

/-- Decimal digits of an unsigned number, most significant first. -/
def utod (n : Nat) : Str := utodAux (n + 1) n

/-- The helper `appendInt(b, x, width)` of package `time` on an empty `b`: a
minus sign for a negative `x`, then the digits of its magnitude, padded with
zeros on the left to `width` digits. -/
def appendInt (x : Int) (width : Nat) : Str :=
  let u := utod x.natAbs
  (if x < 0 then [DASH] else []) ++ List.replicate (width - u.length) 48 ++ u

/-! ## Time -/

/-- A `time.Time`, as the program observes it: the calendar date and the
nanoseconds since midnight on the wall clock of the value's location, and the
changes of that wall clock (daylight saving time and the like).  Each change is
a pair: the nanoseconds from this instant to the instant of the change
(negative when the change lies before), and the nanoseconds by which the wall
clock is set forward at the change (negative when it is set back).  UTC, the
location of the values `time.Parse` returns, has no changes. -/
structure Time where
  year : Int
  month : Nat
  day : Nat
  nsec : Nat
  clockChanges : List (Int × Int) := []
  deriving DecidableEq

/-- The function `isEqual(t1, t2)`. -/
def isEqual (t1 t2 : Time) : Bool :=
  decide (t1.year = t2.year) && decide (t1.month = t2.month) && decide (t1.day = t2.day)

/-- The function `isGreater(t1, t2)`. -/
def isGreater (t1 t2 : Time) : Bool :=
  if t1.year = t2.year ∧ t1.month = t2.month then decide (t1.day > t2.day)
  else if t1.year = t2.year then decide (t1.month > t2.month)
  else decide (t1.year > t2.year)

/-- The helper `isLeap(year)` of package `time`. -/
def isLeap (year : Int) : Bool :=
  decide (year % 4 = 0) && (decide (year % 100 ≠ 0) || decide (year % 400 = 0))

/-- The helper `daysIn(m, year)` of package `time`. -/
def daysIn (m : Nat) (year : Int) : Nat :=
  if m = 2 then (if isLeap year then 29 else 28)
  else if m = 4 ∨ m = 6 ∨ m = 9 ∨ m = 11 then 30
  else 31

/-- Number of the day `year-month-day` of the proleptic Gregorian calendar,
counted from 1970-01-01. -/
def daysFromCivil (year : Int) (month day : Nat) : Int :=
  let y : Int := if month ≤ 2 then year - 1 else year
  let era : Int := y / 400
  let yoe : Int := y - era * 400
  let mp : Int := if month ≤ 2 then (month : Int) + 9 else (month : Int) - 3
  let doy : Int := (153 * mp + 2) / 5 + (day : Int) - 1
  let doe : Int := yoe * 365 + yoe / 4 - yoe / 100 + doy
  era * 146097 + doe - 719468

/-- The calendar date (year, month, day) of a day number counted from
1970-01-01; inverse of `daysFromCivil`. -/
def civilFromDays (z : Int) : Int × Nat × Nat :=
  let z1 : Int := z + 719468
  let era : Int := z1 / 146097
  let doe : Int := z1 - era * 146097
  let yoe : Int := (doe - doe / 1460 + doe / 36524 - doe / 146096) / 365
  let doy : Int := doe - (365 * yoe + yoe / 4 - yoe / 100)
  let mp : Int := (5 * doy + 2) / 153
  let d : Int := doy - (153 * mp + 2) / 5 + 1
  let m : Int := if mp < 10 then mp + 3 else mp - 9
  let y : Int := yoe + era * 400
  ((if m ≤ 2 then y + 1 else y), m.toNat, d.toNat)

/-- A date of the calendar: a month from 1 to 12 and a day from 1 to the
length of the month. -/
def validCal (y : Int) (m d : Nat) : Prop := 1 ≤ m ∧ m ≤ 12 ∧ 1 ≤ d ∧ d ≤ daysIn m y

instance (y : Int) (m d : Nat) : Decidable (validCal y m d) := by
  unfold validCal
  infer_instance

/-- The day after a calendar date (year, month, day). -/
def nextDay (x : Int × Nat × Nat) : Int × Nat × Nat :=
  if x.2.2 < daysIn x.2.1 x.1 then (x.1, x.2.1, x.2.2 + 1)
  else if x.2.1 < 12 then (x.1, x.2.1 + 1, 1)
  else (x.1 + 1, 1, 1)

/-- The calendar date `k` days after a date. -/
def addDays (x : Int × Nat × Nat) : Nat → Int × Nat × Nat
  | 0 => x
  | k + 1 => nextDay (addDays x k)

/-- Nanoseconds in 24 hours. -/
def nsPerDay : Int := 86400000000000

/-- A 64-bit signed integer operation wraps around: the representative of `x`
modulo 2^64 in the range -2^63 .. 2^63 - 1. -/
def wrap64 (x : Int) : Int :=
  (x + 9223372036854775808) % 18446744073709551616 - 9223372036854775808

/-- The calendar date of a time: `Year()`, `Month()`, `Day()`. -/
def Time.date (t : Time) : Int × Nat × Nat := (t.year, t.month, t.day)

/-- Midnight of a calendar date, in UTC. -/
def onDate (x : Int × Nat × Nat) : Time :=
  { year := x.1, month := x.2.1, day := x.2.2, nsec := 0 }

/-- By how much the offset of the location of `t` differs between the instant
of `t` and the instant `d` nanoseconds later: the sum of the clock changes in
between. -/
def Time.offsetChange (t : Time) (d : Int) : Int :=
  if 0 ≤ d then
    ((t.clockChanges.filter (fun c => decide (0 < c.1 ∧ c.1 ≤ d))).map Prod.snd).sum
  else
    -((t.clockChanges.filter (fun c => decide (d < c.1 ∧ c.1 ≤ 0))).map Prod.snd).sum

/-- The method `t.Add(d)` for a duration `d` in nanoseconds: the instant `d`
later, read on the wall clock of the same location.  The wall clock advances
by `d` and by the clock changes in between; the date follows from the number
of the day. -/
def Time.Add (t : Time) (d : Int) : Time :=
  let total : Int := (t.nsec : Int) + d + t.offsetChange d
  let c := civilFromDays (daysFromCivil t.year t.month t.day + total / nsPerDay)
  { year := c.1, month := c.2.1, day := c.2.2, nsec := (total % nsPerDay).toNat,
    clockChanges := t.clockChanges.map (fun c => (c.1 - d, c.2)) }

/-- The helper `getnum(s, false)` of package `time`: one or two leading
digits, as many as there are, and the rest of the text. -/
def getnum (s : Str) : Option (Nat × Str) :=
  if !isDigit s 0 then none
  else if !isDigit s 1 then some (s.headD 0 - 48, s.drop 1)
  else some ((s.headD 0 - 48) * 10 + ((s.drop 1).headD 0 - 48), s.drop 2)

/-- The helper `skip(value, prefix)` of package `time` for the one-byte
text `-` between two fields of the layout. -/
def skipDash (value : Str) : Option Str :=
  match value with
  | c :: rest => if c = DASH then some rest else none
  | [] => none

/-- The call `time.Parse(TimeFormat, value)` with `TimeFormat = "1-2-2006"`:
a month of one or two digits in 1..12, `-`, a day of one or two digits, `-`, a
year of exactly four digits, and nothing after it; the day is then checked
against the length of the month.  The result is midnight of that day. -/
def Parse (value : Str) : Option Time :=
  match getnum value with
  | none => none
  | some (month, v1) =>
    if month = 0 ∨ 12 < month then none
    else
      match skipDash v1 with
      | none => none
      | some v2 =>
        match getnum v2 with
        | none => none
        | some (day, v3) =>
          match skipDash v3 with
          | none => none
          | some v4 =>
            if v4.length < 4 ∨ !isDigit v4 0 then none
            else if !(v4.take 4).all isDigitByte then none
            else if !(v4.drop 4).isEmpty then none
            else
              let year : Int := (decimalValue (v4.take 4) : Int)
              if day < 1 ∨ day > daysIn month year then none
              else some { year := year, month := month, day := day, nsec := 0 }

/-- The values `time.Parse` returns for the layout `TimeFormat`: a day of the
calendar in a year of four digits, at midnight, in UTC. -/
def isDate (t : Time) : Prop :=
  1 ≤ t.month ∧ t.month ≤ 12 ∧ 1 ≤ t.day ∧ t.day ≤ daysIn t.month t.year
    ∧ 0 ≤ t.year ∧ t.year ≤ 9999 ∧ t.nsec = 0 ∧ t.clockChanges = []

instance (t : Time) : Decidable (isDate t) := by
  unfold isDate
  infer_instance

/-- The call `t.Format(TimeFormat)` with `TimeFormat = "1-2-2006"`. -/
def Format (t : Time) : Str :=
  appendInt (t.month : Int) 0 ++ [DASH] ++ appendInt (t.day : Int) 0 ++ [DASH] ++ appendInt t.year 4

/-! ## The registry -/

/-- The type `Rem`: a description and the day it is due (field `at`). -/
structure Rem where
  desc : Str
  at_ : Time
  deriving DecidableEq

/-- The entries of a `map[int]Rem`. -/
abbrev RemMap := List (Int × Rem)

/-- The ids present in the map. -/
def RemMap.keys (m : RemMap) : List Int := m.map Prod.fst

/-- A map holds each id at most once. -/
def RemMap.WF (m : RemMap) : Prop := m.keys.Nodup

instance (m : RemMap) : Decidable (RemMap.WF m) :=
  inferInstanceAs (Decidable (List.Nodup (RemMap.keys m)))

/-- The read `m[k]` with its presence flag. -/
def RemMap.lookup (m : RemMap) (k : Int) : Option Rem :=
  match m with
  | [] => none
  | (i, r) :: rest => if i = k then some r else RemMap.lookup rest k

/-- The statement `delete(m, k)`. -/
def RemMap.delete (m : RemMap) (k : Int) : RemMap := m.filter (fun e => decide (e.1 ≠ k))

/-- The assignment `m[k] = v`. -/
def RemMap.set (m : RemMap) (k : Int) (v : Rem) : RemMap := (k, v) :: RemMap.delete m k

/-- The program state: the globals `rems` and `curIndex`, and the content of
the file at `RemsFilePath`. -/
structure State where
  rems : RemMap
  curIndex : Int
  file : Str
  deriving DecidableEq

/-- The counter `curIndex` is not negative, and every id of the registry is at
least 0 and below it. -/
def State.IdsBelow (st : State) : Prop :=
  0 ≤ st.curIndex ∧ ∀ i ∈ RemMap.keys st.rems, 0 ≤ i ∧ i < st.curIndex

instance (st : State) : Decidable (State.IdsBelow st) := by
  unfold State.IdsBelow
  infer_instance

/-- What the program prints, one constructor per kind of message, with the
data the message shows: `listing` holds the rows of one `viewReminders`,
`invalidFormat` is the message of the `vt+` branch for a suffix that is not a
number, `loadError` the message of `loadReminders` for a date field that does
not parse, `loaded` its final count. -/
inductive Event where
  | saved
  | addError (cmd : Str) (msg : Str)
  | listing (rows : List (Int × Rem))
  | invalidFormat
  | help
  | removed (desc : Str)
  | bye
  | loadError (field : Str)
  | loaded (count : Nat)
  deriving DecidableEq

/-- How `processCmd` ends: it returns to the command loop, the process exits
with a code, or the process stops on a run-time panic. -/
inductive Outcome where
  | continue (st : State) (out : List Event)
  | exit (code : Int) (out : List Event)
  | crash (out : List Event)
  deriving DecidableEq

/-! ## Persistence -/

/-- The text `fmt.Sprintf("%s\t%s\n", rem.desc, rem.at.Format(TimeFormat))`. -/
def remLine (r : Rem) : Str := r.desc ++ [TAB] ++ Format r.at_ ++ [NL]

/-- A reminder's line of the store file without its final newline. -/
def lineOf (r : Rem) : Str := r.desc ++ [TAB] ++ Format r.at_

/-- The variable `lines` of `saveAllReminders` after ranging over the
entries in the order `order`. -/
def serialize (order : List (Int × Rem)) : Str :=
  order.foldl (fun lines e => lines ++ remLine e.2) []

/-- Writing `data` at offset 0 of a file opened with
`O_CREATE|O_RDWR|O_SYNC`: the first bytes are replaced, the file is not cut. -/
def writeAt0 (old data : Str) : Str := data ++ old.drop data.length

/-- The function `saveAllReminders`, `iter` giving the order in which the map
is ranged over. -/
def saveAllReminders (iter : RemMap → List (Int × Rem)) (st : State) : State :=
  { st with file := writeAt0 st.file (serialize (iter st.rems)) }

/-- The constant `bufio.MaxScanTokenSize`. -/
def maxScanTokenSize : Nat := 65536

/-- The helper `dropCR` of package `bufio`: a final `\r` is removed. -/
def dropCR (data : Str) : Str :=
  if data.getLast? = some CR then data.dropLast else data

/-- The first line of `data`: the bytes before the first `\n`, and the bytes
after it when there is one. -/
def cutLine (data : Str) : Str × Option Str :=
  match data with
  | [] => ([], none)
  | c :: rest =>
    if c = NL then ([], some rest)
    else ((c :: (cutLine rest).1), (cutLine rest).2)

/-- The lines `fileScanner.Text()` returns while `fileScanner.Scan()` is true,
for a `bufio.Scanner` with the default line splitting and buffer: scanning
stops at the end of the data and at a line that does not fit the buffer. -/
def scanLinesAux : Nat → Str → List Str
  | 0, _ => []
  | fuel + 1, data =>
    if data.isEmpty then []
    else
      let c := cutLine data
      if c.1.length ≥ maxScanTokenSize then []
      else
        match c.2 with
        | some rest => dropCR c.1 :: scanLinesAux fuel rest
        | none => [dropCR c.1]

/-- The lines a `bufio.Scanner` yields on `data`. -/
def scanLines (data : Str) : List Str := scanLinesAux data.length data

/-- The body of the loop of `loadReminders` for one line. -/
def loadLine (now : Time) (acc : State × Bool × List Event) (line : Str) :
    State × Bool × List Event :=
  let st := acc.1
  match Split line TAB with
  | [desc, dateStr] =>
    match Parse dateStr with
    | some atValue =>
      if !isGreater now atValue then
        ({ st with rems := st.rems.set st.curIndex { desc := desc, at_ := atValue },
                   curIndex := st.curIndex + 1 }, acc.2.1, acc.2.2)
      else (st, true, acc.2.2)
    | none => (st, acc.2.1, acc.2.2 ++ [Event.loadError dateStr])
  | _ => acc

/-- The loop of `loadReminders` over the scanned lines. -/
def loadLines (now : Time) (st : State) (lines : List Str) : State × Bool × List Event :=
  lines.foldl (loadLine now) (st, false, [])

/-- The function `loadReminders`: the state afterwards, the returned flag
`expiredRemindersFound`, and what was printed. -/
def loadReminders (now : Time) (st : State) : State × Bool × List Event :=
  let r := loadLines now st (scanLines st.file)
  (r.1, r.2.1, r.2.2 ++ [Event.loaded r.1.rems.length])

/-- The start of `main`, lines 46 to 50: load, and save when a stale reminder
was met. -/
def startup (iter : RemMap → List (Int × Rem)) (now : Time) (file : Str) : State :=
  let r := loadReminders now { rems := [], curIndex := 0, file := file }
  if r.2.1 then saveAllReminders iter r.1 else r.1

/-! ## Commands -/

/-- The function `getSortedReminderIds`: the ids of the map in ascending
order. -/
def getSortedReminderIds (m : RemMap) : List Int :=
  (RemMap.keys m).insertionSort (fun a b => a ≤ b)

/-- The function `viewReminders(cond)`: the rows it prints, in order, each an
id with the reminder read at it. -/
def viewReminders (m : RemMap) (cond : Time → Bool) : List (Int × Rem) :=
  (getSortedReminderIds m).filterMap (fun i =>
    match RemMap.lookup m i with
    | some r => if cond r.at_ then some (i, r) else none
    | none => none)

/-- The message of the error both failures of `parseReminder` return. -/
def invalidCommandFormat : Str := ascii "Invalid command format"

/-- The function `parseReminder(cmd)`. -/
def parseReminder (cmd : Str) : Except Str (Str × Time) :=
  match Split cmd AT with
  | [d, p] =>
    match Parse p with
    | some remTime => Except.ok (d, remTime)
    | none => Except.error invalidCommandFormat
  | _ => Except.error invalidCommandFormat

/-- The function `addReminder(remCmd)`. -/
def addReminder (st : State) (remCmd : Str) : Except Str State :=
  match parseReminder (ReplaceFirst remCmd (ascii "a ")) with
  | Except.error e => Except.error e
  | Except.ok (ds, ts) =>
    Except.ok { st with rems := st.rems.set st.curIndex { desc := ds, at_ := ts },
                        curIndex := st.curIndex + 1 }

/-- The function `removeReminder(idx)`. -/
def removeReminder (iter : RemMap → List (Int × Rem)) (st : State) (idx : Int) :
    State × List Event :=
  let desc : Str := match RemMap.lookup st.rems idx with
    | some r => r.desc
    | none => []
  (saveAllReminders iter { st with rems := st.rems.delete idx }, [Event.removed desc])

/-- The duration `time.Duration(thresholdDays) * 24 * time.Hour` of the
`vt+` branch, in nanoseconds, for `thresholdDays := days + 1`. -/
def thresholdDuration (days : Int) : Int :=
  wrap64 (wrap64 (wrap64 (days + 1) * 24) * 3600000000000)

/-- The `a ` branch of `processCmd`. -/
def processAdd (iter : RemMap → List (Int × Rem)) (st : State) (cmd : Str) :
    State × List Event :=
  if HasPrefix cmd (ascii "a ") then
    match addReminder st cmd with
    | Except.ok st1 => (saveAllReminders iter st1, [Event.saved])
    | Except.error e => (st, [Event.addError cmd e])
  else (st, [])

/-- The `r` branch of `processCmd` and the `q` branch after it. -/
def processRemoveQuit (iter : RemMap → List (Int × Rem)) (st : State) (out : List Event)
    (cmd : Str) : Outcome :=
  if HasPrefix cmd (ascii "r") then
    match FindStringSubmatch cmd with
    | none => Outcome.crash out
    | some digits =>
      let r := removeReminder iter st (Atoi digits).1
      if cmd = ascii "q" then Outcome.exit 0 (out ++ r.2 ++ [Event.bye])
      else Outcome.continue r.1 (out ++ r.2)
  else if cmd = ascii "q" then Outcome.exit 0 (out ++ [Event.bye])
  else Outcome.continue st out

/-- The function `processCmd(cmd)`: its `if` statements in order. -/
def processCmd (iter : RemMap → List (Int × Rem)) (now : Time) (st : State) (cmd : Str) :
    Outcome :=
  let a := processAdd iter st cmd
  let st1 := a.1
  let out1 := a.2
  let out2 := if cmd = ascii "va" then
      out1 ++ [Event.listing (viewReminders st1.rems (fun _ => true))] else out1
  let out3 := if cmd = ascii "vt" then
      out2 ++ [Event.listing (viewReminders st1.rems (fun t => isEqual now t))] else out2
  if HasPrefix cmd (ascii "vt+") ∧ (Atoi (ReplaceFirst cmd (ascii "vt+"))).2 = false then
    Outcome.continue st1 (out3 ++ [Event.invalidFormat])
  else
    let out4 := if HasPrefix cmd (ascii "vt+") then
        out3 ++ [Event.listing (viewReminders st1.rems (fun t =>
          isGreater (now.Add (thresholdDuration (Atoi (ReplaceFirst cmd (ascii "vt+"))).1)) t))]
      else out3
    let out5 := if cmd = ascii "h" then out4 ++ [Event.help] else out4
    processRemoveQuit iter st1 out5 cmd

/-- Position `i` of `s` holds an `r` that is directly followed by a digit: the
pattern `r(\\d+)` matches at `i`. -/
def rDigitAt (s : Str) (i : Nat) : Prop := s.get? i = some 114 ∧ isDigit s (i + 1) = true

instance (s : Str) (i : Nat) : Decidable (rDigitAt s i) := by
  unfold rDigitAt
  infer_instance

/-- The value `idx` of `idx, _ := strconv.Atoi(matches[1])` in the `r` branch
of `processCmd`, the argument of `removeReminder`; `none` when the pattern does
not match. -/
def removedId (cmd : Str) : Option Int :=
  (FindStringSubmatch cmd).map (fun digits => (Atoi digits).1)

/-- One turn of the command loop: the line read, the clock, and the order in
which the map is ranged over when it is saved. -/
structure Step where
  iter : RemMap → List (Int × Rem)
  now : Time
  cmd : Str

/-- The loop of `main` from the state `st` on the lines of `steps`: the state
after each command, in order, up to the end of the input or to the command
that ends the process. -/
def runLoop (st : State) (steps : List Step) : List State :=
  match steps with
  | [] => []
  | s :: rest =>
    match processCmd s.iter s.now st s.cmd with
    | Outcome.continue st1 _ => st1 :: runLoop st1 rest
    | Outcome.exit _ _ => []
    | Outcome.crash _ => []

/-- The states of a session, in order: the state after the start of `main` on
the store file `file`, then the states after each command. -/
def session (iter : RemMap → List (Int × Rem)) (now : Time) (file : Str)
    (steps : List Step) : List State :=
  startup iter now file :: runLoop (startup iter now file) steps

/-- The diagnostics of `loadReminders` for the given lines: one message for
each line of exactly two fields whose second field is not a valid date. -/
def loadDiagnostics (lines : List Str) : List Event :=
  lines.filterMap (fun line =>
    match Split line TAB with
    | [_, dateStr] => if Parse dateStr = none then some (Event.loadError dateStr) else none
    | _ => none)

/-! ## The specification's wording, and example data -/

/-- The rows the specification describes for `vt+n`, in its words: the
entries whose due date is not later than today plus `n + 1` days. -/
def vtPlusRowsSpec (now : Time) (n : Nat) (m : RemMap) : List (Int × Rem) :=
  viewReminders m (fun t => !isGreater t (onDate (addDays now.date (n + 1))))

/-- The lines of a text file: the pieces between newline bytes, without the
empty piece after a final newline, each without a final `\r`. -/
def fileLines (file : Str) : List Str :=
  (if (Split file NL).getLast? = some [] then (Split file NL).dropLast
    else Split file NL).map dropCR

/-- Every line of the file, up to its newline, is shorter than the buffer of a
`bufio.Scanner`. -/
def shortLines (file : Str) : Prop := ∀ l ∈ Split file NL, l.length < maxScanTokenSize

instance (file : Str) : Decidable (shortLines file) := by
  unfold shortLines
  infer_instance

/-- A store file whose first line has 65536 bytes and whose second line is a
reminder due in 2030. -/
def longThenGood : Str := List.replicate 65536 120 ++ ascii "\nnew\t1-1-2030\n"

/-- New York, 2024-11-03 at 00:30 local time: 90 minutes later, at 02:00, the
clocks are set back by one hour. -/
def newYorkNov3 : Time :=
  { year := 2024, month := 11, day := 3, nsec := 1800000000000,
    clockChanges := [(5400000000000, -3600000000000)] }

/-- The reminder a well-formed line of the store file denotes: the line has
exactly two tab-separated fields and the second is a valid M-D-YYYY date. -/
def parseLine (line : Str) : Option Rem :=
  match Split line TAB with
  | [desc, dateStr] => (Parse dateStr).map (fun t => { desc := desc, at_ := t })
  | _ => none

/-- The reminders of the well-formed lines whose date is not strictly before
today, in the order of the lines. -/
def keptReminders (now : Time) (lines : List Str) : List Rem :=
  (lines.filterMap parseLine).filter (fun r => !isGreater now r.at_)

/-- Whether some well-formed line has a date strictly before today. -/
def expiredFound (now : Time) (lines : List Str) : Bool :=
  (lines.filterMap parseLine).any (fun r => isGreater now r.at_)

/-- The registry that holds the reminders `rs` under the ids 0, 1, 2, ... in
order: each reminder gets as id the number of reminders before it. -/
def numbered (rs : List Rem) : RemMap :=
  rs.foldl (fun m r => ((m.length : Int), r) :: m) []

/-- A reminder that `saveAllReminders` writes as one line that
`loadReminders` reads back: no tab or newline in the description, a line that
fits the scanner's buffer, and a date as `Parse` returns it. -/
def Storable (r : Rem) : Prop :=
  TAB ∉ r.desc ∧ NL ∉ r.desc ∧ (lineOf r).length < maxScanTokenSize ∧ isDate r.at_

instance (r : Rem) : Decidable (Storable r) := by
  unfold Storable
  infer_instance

/-- Some moment of 2024-01-10. -/
def jan10 : Time := { year := 2024, month := 1, day := 10, nsec := 54000000000000 }

/-- A registry whose one reminder has a tab in its description, as the
command `a a<TAB>b@1-1-2030` leaves it, with an empty store file. -/
def tabbed : State :=
  { rems := [(0, { desc := ascii "a\tb", at_ := { year := 2030, month := 1, day := 1, nsec := 0 } })],
    curIndex := 1,
    file := [] }

/-- A store file with one expired line followed by one future line. -/
def staleThenFuture : Str := ascii "old\t1-1-2020\nnew\t1-1-2030\n"

/-- A registry with reminders due 2024-01-10, 2024-01-11 and 2024-01-12. -/
def threeDays : State :=
  { rems := [(0, { desc := ascii "x", at_ := { year := 2024, month := 1, day := 10, nsec := 0 } }),
             (1, { desc := ascii "y", at_ := { year := 2024, month := 1, day := 11, nsec := 0 } }),
             (2, { desc := ascii "z", at_ := { year := 2024, month := 1, day := 12, nsec := 0 } })],
    curIndex := 3,
    file := ascii "x\t1-10-2024\ny\t1-11-2024\nz\t1-12-2024\n" }

end Reminders

namespace Reminders

/-! ## Lemmas on the registry -/

theorem RemMap.lookup_eq_some_of_mem {m : RemMap} (h : RemMap.WF m) {k : Int} {r : Rem}
    (hm : (k, r) ∈ m) : RemMap.lookup m k = some r := by
  induction m with
  | nil => simp at hm
  | cons e rest ih =>
    obtain ⟨i, v⟩ := e
    have hnd : i ∉ RemMap.keys rest ∧ RemMap.WF rest := by
      simpa [RemMap.WF, RemMap.keys] using h
    rcases List.mem_cons.mp hm with heq | hin
    · cases heq
      simp [RemMap.lookup]
    · have hne : i ≠ k := by
        intro hik
        subst hik
        exact hnd.1 (List.mem_map_of_mem Prod.fst hin)
      simp [RemMap.lookup, hne, ih hnd.2 hin]

theorem RemMap.mem_of_lookup_eq_some {m : RemMap} {k : Int} {r : Rem}
    (h : RemMap.lookup m k = some r) : (k, r) ∈ m := by
  induction m with
  | nil => simp [RemMap.lookup] at h
  | cons e rest ih =>
    obtain ⟨i, v⟩ := e
    by_cases hik : i = k
    · subst hik
      simp [RemMap.lookup] at h
      simp [h]
    · simp [RemMap.lookup, hik] at h
      exact List.mem_cons_of_mem _ (ih h)

theorem RemMap.lookup_eq_none_iff {m : RemMap} {k : Int} :
    RemMap.lookup m k = none ↔ k ∉ RemMap.keys m := by
  induction m with
  | nil => simp [RemMap.lookup, RemMap.keys]
  | cons e rest ih =>
    obtain ⟨i, v⟩ := e
    by_cases hik : i = k
    · simp [RemMap.lookup, RemMap.keys, hik]
    · have hki : ¬ k = i := fun h => hik h.symm
      simpa [RemMap.lookup, RemMap.keys, hik, hki] using ih

theorem RemMap.delete_of_not_mem {m : RemMap} {k : Int} (h : k ∉ RemMap.keys m) :
    RemMap.delete m k = m := by
  unfold RemMap.delete
  rw [List.filter_eq_self]
  intro e he
  have : e.1 ≠ k := by
    intro hek
    exact h (hek ▸ List.mem_map_of_mem Prod.fst he)
  simpa using this

theorem RemMap.lookup_delete_self (m : RemMap) (k : Int) :
    RemMap.lookup (RemMap.delete m k) k = none := by
  rw [RemMap.lookup_eq_none_iff]
  simp [RemMap.keys, RemMap.delete]

theorem RemMap.lookup_delete_ne (m : RemMap) {k j : Int} (h : j ≠ k) :
    RemMap.lookup (RemMap.delete m k) j = RemMap.lookup m j := by
  induction m with
  | nil => simp [RemMap.delete, RemMap.lookup]
  | cons e rest ih =>
    obtain ⟨i, v⟩ := e
    by_cases hik : i = k
    · subst hik
      have hij : ¬ i = j := fun h2 => h h2.symm
      simpa [RemMap.delete, RemMap.lookup, hij] using ih
    · by_cases hij : i = j
      · subst hij
        simp [RemMap.delete, RemMap.lookup, hik]
      · simpa [RemMap.delete, RemMap.lookup, hik, hij] using ih

theorem RemMap.WF_delete {m : RemMap} (h : RemMap.WF m) (k : Int) :
    RemMap.WF (RemMap.delete m k) := by
  unfold RemMap.WF RemMap.keys RemMap.delete
  exact List.Nodup.sublist (List.Sublist.map _ (List.filter_sublist _)) h

theorem RemMap.lookup_set_self (m : RemMap) (k : Int) (v : Rem) :
    RemMap.lookup (RemMap.set m k v) k = some v := by
  simp [RemMap.set, RemMap.lookup]

theorem RemMap.lookup_set_ne (m : RemMap) {k j : Int} (v : Rem) (h : j ≠ k) :
    RemMap.lookup (RemMap.set m k v) j = RemMap.lookup m j := by
  have hkj : ¬ k = j := fun h2 => h h2.symm
  simp [RemMap.set, RemMap.lookup, hkj, RemMap.lookup_delete_ne m h]

theorem RemMap.WF_set {m : RemMap} (h : RemMap.WF m) (k : Int) (v : Rem) :
    RemMap.WF (RemMap.set m k v) := by
  have h1 := RemMap.WF_delete h k
  have h2 : k ∉ RemMap.keys (RemMap.delete m k) := by
    simp [RemMap.keys, RemMap.delete]
  unfold RemMap.WF RemMap.keys RemMap.set
  simp only [List.map_cons, List.nodup_cons]
  exact ⟨h2, h1⟩

end Reminders

namespace Reminders

/-! ## The date comparator -/

/-- C8: `isGreater a b` holds exactly when the triple (year, month, day) of `a`
is strictly greater than that of `b` in lexicographic order, year first, then
month, then day; the time of day of either argument plays no role. -/
theorem isGreater_iff_lex (a b : Time) :
    (isGreater a b = true ↔
      Prod.Lex (fun x y : Int => x < y) (Prod.Lex (fun x y : Nat => x < y) (fun x y : Nat => x < y))
        (b.year, b.month, b.day) (a.year, a.month, a.day))
    ∧ ∀ na nb : Nat,
        isGreater { a with nsec := na } { b with nsec := nb } = isGreater a b := by
  refine ⟨?_, fun na nb => rfl⟩
  simp only [Prod.lex_def, isGreater]
  by_cases hy : a.year = b.year
  · by_cases hm : a.month = b.month
    · simp [hy, hm]
    · simp [hy, hm]
      omega
  · simp [hy]
    omega

/-- C9: `isGreater d1 d2` and `isGreater d2 d1` are never both true, and
`isEqual d d` is true for every `d`. -/
theorem isGreater_asymm_isEqual_refl (d1 d2 d : Time) :
    ¬ (isGreater d1 d2 = true ∧ isGreater d2 d1 = true) ∧ isEqual d d = true := by
  refine ⟨?_, by simp [isEqual]⟩
  simp only [isGreater]
  by_cases hy : d1.year = d2.year
  · by_cases hm : d1.month = d2.month
    · simp [hy, hm]
      omega
    · have hm2 : ¬ d2.month = d1.month := fun h => hm h.symm
      simp [hy, hm, hm2]
      omega
  · have hy2 : ¬ d2.year = d1.year := fun h => hy h.symm
    simp [hy, hy2]
    omega

end Reminders

namespace Reminders

/-! ## Listing -/

theorem getSortedReminderIds_sorted (m : RemMap) :
    (getSortedReminderIds m).Sorted (fun a b : Int => a ≤ b) :=
  List.sorted_insertionSort _ _

theorem getSortedReminderIds_perm (m : RemMap) :
    (getSortedReminderIds m).Perm (RemMap.keys m) :=
  List.perm_insertionSort _ _

theorem getSortedReminderIds_strict {m : RemMap} (h : RemMap.WF m) :
    (getSortedReminderIds m).Sorted (fun a b : Int => a < b) := by
  have hs := getSortedReminderIds_sorted m
  have hn : (getSortedReminderIds m).Nodup :=
    (getSortedReminderIds_perm m).nodup_iff.mpr h
  unfold List.Sorted at hs ⊢
  have := List.Pairwise.and hs hn
  exact this.imp (fun hab => lt_of_le_of_ne hab.1 hab.2)

theorem viewReminders_ids (m : RemMap) (cond : Time → Bool) :
    (viewReminders m cond).map Prod.fst =
      (getSortedReminderIds m).filter (fun i =>
        match RemMap.lookup m i with
        | some r => cond r.at_
        | none => false) := by
  unfold viewReminders
  induction getSortedReminderIds m with
  | nil => rfl
  | cons i rest ih =>
    cases hl : RemMap.lookup m i with
    | none => simp [List.filterMap_cons, List.filter_cons, hl, ih]
    | some r =>
      cases hc : cond r.at_ <;> simp [List.filterMap_cons, List.filter_cons, hl, hc, ih]

theorem mem_viewReminders {m : RemMap} (cond : Time → Bool) (i : Int) (r : Rem) :
    (i, r) ∈ viewReminders m cond ↔ RemMap.lookup m i = some r ∧ cond r.at_ = true := by
  unfold viewReminders
  rw [List.mem_filterMap]
  constructor
  · rintro ⟨j, _, hj⟩
    cases hl : RemMap.lookup m j with
    | none => simp [hl] at hj
    | some v =>
      cases hc : cond v.at_
      · simp [hl, hc] at hj
      · simp [hl, hc] at hj
        obtain ⟨rfl, rfl⟩ := hj
        exact ⟨hl, hc⟩
  · rintro ⟨hl, hc⟩
    refine ⟨i, ?_, by simp [hl, hc]⟩
    have hk : i ∈ RemMap.keys m := by
      by_contra hn
      rw [← RemMap.lookup_eq_none_iff] at hn
      simp [hn] at hl
    exact (getSortedReminderIds_perm m).mem_iff.mpr hk

/-- C10: for every registry and every predicate on due dates, the rows of
`viewReminders` are in strictly ascending order of id, so each entry is listed
at most once, and a row (id, reminder) is listed exactly when it is an entry
of the registry and the predicate holds of its due date. -/
theorem viewReminders_spec (m : RemMap) (cond : Time → Bool) (h : RemMap.WF m) :
    ((viewReminders m cond).map Prod.fst).Sorted (fun a b : Int => a < b)
    ∧ (viewReminders m cond).Nodup
    ∧ ∀ (i : Int) (r : Rem),
        (i, r) ∈ viewReminders m cond ↔ ((i, r) ∈ m ∧ cond r.at_ = true) := by
  have hs : ((viewReminders m cond).map Prod.fst).Sorted (fun a b : Int => a < b) := by
    rw [viewReminders_ids]
    exact (getSortedReminderIds_strict h).filter _
  refine ⟨hs, ?_, ?_⟩
  · have hn : ((viewReminders m cond).map Prod.fst).Nodup := hs.nodup
    exact List.Nodup.of_map _ hn
  · intro i r
    rw [mem_viewReminders]
    constructor
    · rintro ⟨hl, hc⟩
      exact ⟨RemMap.mem_of_lookup_eq_some hl, hc⟩
    · rintro ⟨hm, hc⟩
      exact ⟨RemMap.lookup_eq_some_of_mem h hm, hc⟩

/-- Witness of C10 on a registry whose ids are not in ascending order. -/
theorem viewReminders_spec_witness :
    RemMap.WF [(2, ⟨ascii "b", { year := 2024, month := 1, day := 10, nsec := 0 }⟩), (0, ⟨ascii "a", { year := 2030, month := 5, day := 1, nsec := 0 }⟩)]
    ∧ viewReminders [(2, ⟨ascii "b", { year := 2024, month := 1, day := 10, nsec := 0 }⟩), (0, ⟨ascii "a", { year := 2030, month := 5, day := 1, nsec := 0 }⟩)]
        (fun _ => true)
      = [(0, ⟨ascii "a", { year := 2030, month := 5, day := 1, nsec := 0 }⟩), (2, ⟨ascii "b", { year := 2024, month := 1, day := 10, nsec := 0 }⟩)]
    ∧ ((viewReminders [(2, ⟨ascii "b", { year := 2024, month := 1, day := 10, nsec := 0 }⟩), (0, ⟨ascii "a", { year := 2030, month := 5, day := 1, nsec := 0 }⟩)]
        (fun _ => true)).map Prod.fst).Sorted (fun a b : Int => a < b) :=
  ⟨by decide, by decide,
   (viewReminders_spec [(2, ⟨ascii "b", { year := 2024, month := 1, day := 10, nsec := 0 }⟩), (0, ⟨ascii "a", { year := 2030, month := 5, day := 1, nsec := 0 }⟩)]
      (fun _ => true) (by decide)).1⟩

end Reminders

namespace Reminders

/-! ## Decimal numbers -/

theorem utodAux_eq (n : Nat) : ∀ fuel, n < fuel → utodAux fuel n = utodAux (n + 1) n := by
  induction n using Nat.strong_induction_on with
  | _ n ih =>
    intro fuel hf
    obtain ⟨f, rfl⟩ : ∃ f, fuel = f + 1 := ⟨fuel - 1, by omega⟩
    by_cases h10 : n < 10
    · simp [utodAux, h10]
    · have hlt : n / 10 < n := by omega
      simp only [utodAux, h10, if_false]
      rw [ih (n / 10) hlt f (by omega), ih (n / 10) hlt n hlt]

theorem utod_lt {n : Nat} (h : n < 10) : utod n = [48 + n] := by
  simp [utod, utodAux, h]

theorem utod_ge {n : Nat} (h : 10 ≤ n) : utod n = utod (n / 10) ++ [48 + n % 10] := by
  have h10 : ¬ n < 10 := by omega
  have hlt : n / 10 < n := by omega
  have e : utodAux (n + 1) n = utodAux n (n / 10) ++ [48 + n % 10] := by
    simp [utodAux, h10]
  unfold utod
  rw [e, utodAux_eq (n / 10) n hlt]

theorem utod_all_digits (n : Nat) : ∀ c ∈ utod n, isDigitByte c = true := by
  induction n using Nat.strong_induction_on with
  | _ n ih =>
    by_cases h10 : n < 10
    · rw [utod_lt h10]
      intro c hc
      simp at hc
      subst hc
      simp [isDigitByte]
      omega
    · rw [utod_ge (by omega)]
      intro c hc
      rcases List.mem_append.mp hc with h1 | h1
      · exact ih (n / 10) (by omega) c h1
      · simp at h1
        subst h1
        simp [isDigitByte]
        omega

theorem utod_ne_nil (n : Nat) : utod n ≠ [] := by
  by_cases h10 : n < 10
  · rw [utod_lt h10]
    simp
  · rw [utod_ge (by omega)]
    simp

theorem decimalValue_append (a : Str) (c : Nat) :
    decimalValue (a ++ [c]) = decimalValue a * 10 + (c - 48) := by
  simp [decimalValue, List.foldl_append]

theorem decimalValue_utod (n : Nat) : decimalValue (utod n) = n := by
  induction n using Nat.strong_induction_on with
  | _ n ih =>
    by_cases h10 : n < 10
    · rw [utod_lt h10]
      simp [decimalValue]
    · rw [utod_ge (by omega), decimalValue_append, ih (n / 10) (by omega)]
      omega

theorem utod_head_digit (n : Nat) : ∃ c rest, utod n = c :: rest ∧ isDigitByte c = true := by
  cases hu : utod n with
  | nil => exact absurd hu (utod_ne_nil n)
  | cons c rest =>
    exact ⟨c, rest, rfl, utod_all_digits n c (by simp [hu])⟩

theorem Atoi_utod {n : Nat} (h : n < 9223372036854775808) : Atoi (utod n) = ((n : Int), true) := by
  obtain ⟨c, rest, hu, hc⟩ := utod_head_digit n
  have hall : ∀ x ∈ c :: rest, isDigitByte x = true := hu ▸ utod_all_digits n
  have hv : decimalValue (c :: rest) = n := hu ▸ decimalValue_utod n
  have hc1 : ¬ c = 45 := by
    intro h45
    subst h45
    simp [isDigitByte] at hc
  have hc2 : ¬ c = 43 := by
    intro h43
    subst h43
    simp [isDigitByte] at hc
  have hall2 : (c :: rest).all isDigitByte = true := List.all_eq_true.mpr hall
  have hn : ¬ 9223372036854775808 ≤ n := by omega
  unfold Atoi
  rw [hu]
  simp [DASH, hc1, hc2, hall2, hv, hn]

end Reminders

namespace Reminders

/-! ## Splitting -/

theorem Split_ne_nil (s : Str) (sep : Nat) : Split s sep ≠ [] := by
  cases s with
  | nil => simp [Split]
  | cons c rest =>
    unfold Split
    by_cases h : c = sep
    · simp [h]
    · simp only [h, if_false]
      cases Split rest sep <;> simp

theorem Split_of_not_mem {s : Str} {sep : Nat} (h : sep ∉ s) : Split s sep = [s] := by
  induction s with
  | nil => simp [Split]
  | cons c rest ih =>
    have hc : ¬ c = sep := fun e => h (by simp [e])
    have hr : sep ∉ rest := fun e => h (List.mem_cons_of_mem _ e)
    simp [Split, hc, ih hr]

theorem Split_append_cons {a : Str} {sep : Nat} (h : sep ∉ a) (b : Str) :
    Split (a ++ sep :: b) sep = a :: Split b sep := by
  induction a with
  | nil => simp [Split]
  | cons c rest ih =>
    have hc : ¬ c = sep := fun e => h (by simp [e])
    have hr : sep ∉ rest := fun e => h (List.mem_cons_of_mem _ e)
    simp [Split, hc, ih hr]

theorem length_Split (s : Str) (sep : Nat) : (Split s sep).length = s.count sep + 1 := by
  induction s with
  | nil => simp [Split]
  | cons c rest ih =>
    unfold Split
    by_cases h : c = sep
    · subst h
      simp [ih]
    · have h2 : ¬ (c == sep) = true := by simpa using h
      simp only [h, if_false, List.count_cons, h2]
      cases hs : Split rest sep with
      | nil => exact absurd hs (Split_ne_nil rest sep)
      | cons f fs =>
        rw [hs] at ih
        simpa using ih

theorem Split_two {d p : Str} {sep : Nat} (hd : sep ∉ d) (hp : sep ∉ p) :
    Split (d ++ sep :: p) sep = [d, p] := by
  rw [Split_append_cons hd, Split_of_not_mem hp]

end Reminders

namespace Reminders

/-! ## The calendar: day numbers and the next day -/

theorem yoe_core_aux (e q t doy : Int) (he0 : 0 ≤ e) (he3 : e ≤ 3) (hq0 : 0 ≤ q) (hq : q ≤ 24)
    (ht0 : 0 ≤ t) (ht : t ≤ 3) (h3 : 0 ≤ doy) (h4 : doy ≤ 365)
    (h5 : doy = 365 → (t = 3 ∧ (q ≠ 24 ∨ e = 3))) :
    ((36524 * e + 1461 * q + 365 * t + doy)
      - (36524 * e + 1461 * q + 365 * t + doy) / 1460
      + (36524 * e + 1461 * q + 365 * t + doy) / 36524
      - (36524 * e + 1461 * q + 365 * t + doy) / 146096) / 365 = 100 * e + 4 * q + t := by
  generalize hN : 36524 * e + 1461 * q + 365 * t + doy = N
  have hf : N / 1460 = 25 * e + q + (24 * e + q + 365 * t + doy) / 1460 := by omega
  have hk : (24 * e + q + 365 * t + doy) / 1460 = 0
      ∨ (24 * e + q + 365 * t + doy) / 1460 = 1 := by omega
  by_cases hmax : doy = 365 ∧ q = 24 ∧ e = 3
  · obtain ⟨rfl, rfl, rfl⟩ := hmax
    have ht3 : t = 3 := (h5 rfl).1
    subst ht3
    subst hN
    norm_num
  · have hR : 1461 * q + 365 * t + doy ≤ 36523 := by
      by_cases hd : doy = 365
      · have := h5 hd
        omega
      · omega
    have hg : N / 36524 = e := by omega
    have hi : N / 146096 = 0 := by omega
    rw [hf, hg, hi]
    rcases hk with hk | hk
    · have hd : doy ≤ 364 := by
        by_cases hd : doy = 365
        · have := h5 hd
          omega
        · omega
      omega
    · omega

theorem yoe_core (yoe doy : Int) (h1 : 0 ≤ yoe) (h2 : yoe ≤ 399) (h3 : 0 ≤ doy)
    (h4 : doy ≤ 365)
    (h5 : doy = 365 → ((yoe + 1) % 4 = 0 ∧ ((yoe + 1) % 100 ≠ 0 ∨ yoe = 399))) :
    ((yoe * 365 + yoe / 4 - yoe / 100 + doy)
      - (yoe * 365 + yoe / 4 - yoe / 100 + doy) / 1460
      + (yoe * 365 + yoe / 4 - yoe / 100 + doy) / 36524
      - (yoe * 365 + yoe / 4 - yoe / 100 + doy) / 146096) / 365 = yoe := by
  have hN : yoe * 365 + yoe / 4 - yoe / 100 + doy
      = 36524 * (yoe / 100) + 1461 * (yoe % 100 / 4) + 365 * (yoe % 100 % 4) + doy := by
    omega
  have hy : yoe = 100 * (yoe / 100) + 4 * (yoe % 100 / 4) + yoe % 100 % 4 := by omega
  rw [hN]
  have := yoe_core_aux (yoe / 100) (yoe % 100 / 4) (yoe % 100 % 4) doy (by omega) (by omega)
    (by omega) (by omega) (by omega) (by omega) h3 h4 (by omega)
  rw [this]
  exact hy.symm

theorem civilFromDays_parts (era yoe doy : Int) (h1 : 0 ≤ yoe) (h2 : yoe ≤ 399)
    (h3 : 0 ≤ doy) (h4 : doy ≤ 365)
    (h5 : doy = 365 → ((yoe + 1) % 4 = 0 ∧ ((yoe + 1) % 100 ≠ 0 ∨ yoe = 399))) :
    civilFromDays (era * 146097 + (yoe * 365 + yoe / 4 - yoe / 100 + doy) - 719468)
      = ((if (if (5 * doy + 2) / 153 < 10 then (5 * doy + 2) / 153 + 3
              else (5 * doy + 2) / 153 - 9) ≤ 2
          then yoe + era * 400 + 1 else yoe + era * 400),
         (if (5 * doy + 2) / 153 < 10 then (5 * doy + 2) / 153 + 3
            else (5 * doy + 2) / 153 - 9).toNat,
         (doy - (153 * ((5 * doy + 2) / 153) + 2) / 5 + 1).toNat) := by
  have hcore := yoe_core yoe doy h1 h2 h3 h4 h5
  generalize hdoe : yoe * 365 + yoe / 4 - yoe / 100 + doy = doe at hcore
  have hb : 0 ≤ doe ∧ doe ≤ 146096 := by
    have hN : yoe * 365 + yoe / 4 - yoe / 100 + doy
        = 36524 * (yoe / 100) + 1461 * (yoe % 100 / 4) + 365 * (yoe % 100 % 4) + doy := by
      omega
    rw [hN] at hdoe
    omega
  have hz : era * 146097 + doe - 719468 + 719468 = era * 146097 + doe := by ring
  have hera : (era * 146097 + doe) / 146097 = era := by omega
  have hdoe2 : era * 146097 + doe - era * 146097 = doe := by ring
  have hdoy : doe - (365 * yoe + yoe / 4 - yoe / 100) = doy := by omega
  simp only [civilFromDays, hz, hera, hdoe2, hcore, hdoy]

theorem daysIn_cases (m : Nat) (y : Int) (h1 : 1 ≤ m) (h2 : m ≤ 12) :
    (m = 2 ∧ isLeap y = true ∧ daysIn m y = 29)
    ∨ (m = 2 ∧ isLeap y = false ∧ daysIn m y = 28)
    ∨ ((m = 4 ∨ m = 6 ∨ m = 9 ∨ m = 11) ∧ daysIn m y = 30)
    ∨ ((m = 1 ∨ m = 3 ∨ m = 5 ∨ m = 7 ∨ m = 8 ∨ m = 10 ∨ m = 12) ∧ daysIn m y = 31) := by
  unfold daysIn
  by_cases hm2 : m = 2
  · cases hl : isLeap y <;> simp [hm2]
  · by_cases h30 : m = 4 ∨ m = 6 ∨ m = 9 ∨ m = 11
    · simp [hm2, h30]
    · simp only [hm2, h30, if_false]
      right; right; right
      refine ⟨?_, trivial⟩
      omega

theorem isLeap_iff (y : Int) :
    isLeap y = true ↔ (y % 4 = 0 ∧ (y % 100 ≠ 0 ∨ y % 400 = 0)) := by
  simp [isLeap]

theorem dayBound (y : Int) (m d : Nat) (h : validCal y m d) :
    d ≤ 31 ∧ ((m = 4 ∨ m = 6 ∨ m = 9 ∨ m = 11) → d ≤ 30) ∧ (m = 2 → d ≤ 29)
    ∧ (m = 2 → d = 29 → (y % 4 = 0 ∧ (y % 100 ≠ 0 ∨ y % 400 = 0))) := by
  obtain ⟨hm1, hm2, hd1, hd2⟩ := h
  rcases daysIn_cases m y hm1 hm2 with ⟨h2, hl, hlen⟩ | ⟨h2, hl, hlen⟩ | ⟨h2, hlen⟩ | ⟨h2, hlen⟩
  · refine ⟨by omega, by omega, by omega, fun _ _ => (isLeap_iff y).mp hl⟩
  · refine ⟨by omega, by omega, by omega, fun _ h29 => by omega⟩
  · refine ⟨by omega, by omega, by omega, fun hm _ => by omega⟩
  · refine ⟨by omega, by omega, by omega, fun hm _ => by omega⟩

theorem civilFromDays_daysFromCivil (y : Int) (m d : Nat) (h : validCal y m d) :
    civilFromDays (daysFromCivil y m d) = (y, m, d) := by
  obtain ⟨hm1, hm2, hd1, hd2⟩ := h
  have hlen := daysIn_cases m y hm1 hm2
  have hleap := isLeap_iff y
  have key : ∀ (y1 doy : Int), 0 ≤ doy → doy ≤ 365 →
      (doy = 365 → (y1 + 1) % 4 = 0 ∧ ((y1 + 1) % 100 ≠ 0 ∨ (y1 + 1) % 400 = 0)) →
      civilFromDays (y1 / 400 * 146097
          + ((y1 - y1 / 400 * 400) * 365 + (y1 - y1 / 400 * 400) / 4
              - (y1 - y1 / 400 * 400) / 100 + doy) - 719468)
        = ((if (if (5 * doy + 2) / 153 < 10 then (5 * doy + 2) / 153 + 3
                else (5 * doy + 2) / 153 - 9) ≤ 2
            then y1 + 1 else y1),
           (if (5 * doy + 2) / 153 < 10 then (5 * doy + 2) / 153 + 3
              else (5 * doy + 2) / 153 - 9).toNat,
           (doy - (153 * ((5 * doy + 2) / 153) + 2) / 5 + 1).toNat) := by
    intro y1 doy h3 h4 h5
    have := civilFromDays_parts (y1 / 400) (y1 - y1 / 400 * 400) doy (by omega) (by omega)
      h3 h4 (by omega)
    rw [this]
    have e : y1 - y1 / 400 * 400 + y1 / 400 * 400 = y1 := by ring
    rw [e]
  have hb := dayBound y m d ⟨hm1, hm2, hd1, hd2⟩
  obtain ⟨hb31, hb30, hb29, hbleap⟩ := hb
  unfold daysFromCivil
  by_cases hm : m ≤ 2
  · simp only [hm, if_true]
    rw [key (y - 1) ((153 * ((m : Int) + 9) + 2) / 5 + (d : Int) - 1) (by omega) (by omega)
      (by intro h365; have := hbleap (by omega) (by omega); omega)]
    have hmp : (5 * ((153 * ((m : Int) + 9) + 2) / 5 + (d : Int) - 1) + 2) / 153
        = (m : Int) + 9 := by omega
    rw [hmp]
    simp only [Prod.mk.injEq]
    refine ⟨?_, ?_, ?_⟩
    · split_ifs <;> omega
    · split_ifs <;> omega
    · omega
  · simp only [hm, if_false]
    rw [key y ((153 * ((m : Int) - 3) + 2) / 5 + (d : Int) - 1) (by omega) (by omega)
      (by intro h365; omega)]
    have hmp : (5 * ((153 * ((m : Int) - 3) + 2) / 5 + (d : Int) - 1) + 2) / 153
        = (m : Int) - 3 := by omega
    rw [hmp]
    simp only [Prod.mk.injEq]
    refine ⟨?_, ?_, ?_⟩
    · split_ifs <;> omega
    · split_ifs <;> omega
    · omega

theorem yearStart_eq (y : Int) :
    y / 400 * 146097 + ((y - y / 400 * 400) * 365 + (y - y / 400 * 400) / 4
        - (y - y / 400 * 400) / 100)
      = 365 * y + y / 4 - y / 100 + y / 400 := by
  omega

theorem daysFromCivil_eq (y : Int) (m d : Nat) :
    daysFromCivil y m d
      = 365 * (if m ≤ 2 then y - 1 else y) + (if m ≤ 2 then y - 1 else y) / 4
          - (if m ≤ 2 then y - 1 else y) / 100 + (if m ≤ 2 then y - 1 else y) / 400
          + ((153 * (if m ≤ 2 then (m : Int) + 9 else (m : Int) - 3) + 2) / 5 + (d : Int) - 1)
          - 719468 := by
  unfold daysFromCivil
  have := yearStart_eq (if m ≤ 2 then y - 1 else y)
  simp only
  omega

theorem one_le_daysIn (m : Nat) (y : Int) : 1 ≤ daysIn m y := by
  unfold daysIn
  split_ifs <;> omega

theorem nextDay_spec (y : Int) (m d : Nat) (h : validCal y m d) :
    validCal (nextDay (y, m, d)).1 (nextDay (y, m, d)).2.1 (nextDay (y, m, d)).2.2
    ∧ daysFromCivil (nextDay (y, m, d)).1 (nextDay (y, m, d)).2.1 (nextDay (y, m, d)).2.2
        = daysFromCivil y m d + 1 := by
  obtain ⟨hm1, hm2, hd1, hd2⟩ := h
  unfold nextDay
  by_cases h1 : d < daysIn m y
  · simp only [h1, if_true]
    refine ⟨⟨hm1, hm2, by omega, by omega⟩, ?_⟩
    rw [daysFromCivil_eq, daysFromCivil_eq]
    push_cast
    omega
  · have hd : d = daysIn m y := by omega
    simp only [h1, if_false]
    by_cases h2 : m < 12
    · simp only [h2, if_true]
      refine ⟨⟨by omega, by omega, le_refl 1, one_le_daysIn _ _⟩, ?_⟩
      rw [daysFromCivil_eq, daysFromCivil_eq]
      rcases daysIn_cases m y hm1 hm2 with ⟨hm, hl, hlen⟩ | ⟨hm, hl, hlen⟩ | ⟨hm, hlen⟩
          | ⟨hm, hlen⟩
      · have := (isLeap_iff y).mp hl
        subst hm
        rw [hd, hlen]
        norm_num
        omega
      · have hnl : ¬ (y % 4 = 0 ∧ (y % 100 ≠ 0 ∨ y % 400 = 0)) := by
          intro hc
          rw [(isLeap_iff y).mpr hc] at hl
          exact Bool.noConfusion hl
        subst hm
        rw [hd, hlen]
        norm_num
        omega
      · rw [hd, hlen]
        rcases hm with rfl | rfl | rfl | rfl <;> norm_num <;> omega
      · rw [hd, hlen]
        rcases hm with rfl | rfl | rfl | rfl | rfl | rfl | rfl <;> norm_num at h2 ⊢ <;> omega
    · have hm12 : m = 12 := by omega
      subst hm12
      simp only [h2, if_false]
      refine ⟨⟨le_refl 1, by omega, le_refl 1, one_le_daysIn _ _⟩, ?_⟩
      have hlen : daysIn 12 y = 31 := by simp [daysIn]
      rw [daysFromCivil_eq, daysFromCivil_eq, hd, hlen]
      norm_num
      omega

theorem addDays_spec (x : Int × Nat × Nat) (h : validCal x.1 x.2.1 x.2.2) (k : Nat) :
    validCal (addDays x k).1 (addDays x k).2.1 (addDays x k).2.2
    ∧ daysFromCivil (addDays x k).1 (addDays x k).2.1 (addDays x k).2.2
        = daysFromCivil x.1 x.2.1 x.2.2 + k := by
  induction k with
  | zero => exact ⟨h, by simp [addDays]⟩
  | succ k ih =>
    obtain ⟨hv, hd⟩ := ih
    have := nextDay_spec (addDays x k).1 (addDays x k).2.1 (addDays x k).2.2 hv
    show validCal (nextDay (addDays x k)).1 (nextDay (addDays x k)).2.1 (nextDay (addDays x k)).2.2
      ∧ daysFromCivil (nextDay (addDays x k)).1 (nextDay (addDays x k)).2.1
          (nextDay (addDays x k)).2.2 = _
    refine ⟨this.1, ?_⟩
    rw [this.2, hd]
    push_cast
    ring

theorem civilFromDays_add (x : Int × Nat × Nat) (h : validCal x.1 x.2.1 x.2.2) (k : Nat) :
    civilFromDays (daysFromCivil x.1 x.2.1 x.2.2 + k) = addDays x k := by
  obtain ⟨hv, hd⟩ := addDays_spec x h k
  rw [← hd, civilFromDays_daysFromCivil _ _ _ hv]

end Reminders

namespace Reminders

/-! ## The command `vt+n` -/

theorem ascii_a : ascii "a " = [97, 32] := by decide
theorem ascii_va : ascii "va" = [118, 97] := by decide
theorem ascii_vt : ascii "vt" = [118, 116] := by decide
theorem ascii_vtp : ascii "vt+" = [118, 116, 43] := by decide
theorem ascii_h : ascii "h" = [104] := by decide
theorem ascii_r : ascii "r" = [114] := by decide
theorem ascii_q : ascii "q" = [113] := by decide

theorem wrap64_of_range {x : Int} (h1 : -9223372036854775808 ≤ x) (h2 : x < 9223372036854775808) :
    wrap64 x = x := by
  unfold wrap64
  omega

theorem thresholdDuration_small {n : Nat} (hn : n ≤ 106750) :
    thresholdDuration (n : Int) = ((n : Int) + 1) * nsPerDay := by
  have h1 : wrap64 ((n : Int) + 1) = (n : Int) + 1 :=
    wrap64_of_range (by omega) (by omega)
  have h2 : wrap64 (((n : Int) + 1) * 24) = ((n : Int) + 1) * 24 :=
    wrap64_of_range (by omega) (by omega)
  have h3 : wrap64 (((n : Int) + 1) * 24 * 3600000000000)
      = ((n : Int) + 1) * 24 * 3600000000000 :=
    wrap64_of_range (by omega) (by omega)
  unfold thresholdDuration nsPerDay
  rw [h1, h2, h3]
  ring

theorem processCmd_vtPlus (iter : RemMap → List (Int × Rem)) (now : Time)
    (st : State) (n : Nat) (hn : n ≤ 106750) :
    processCmd iter now st (ascii "vt+" ++ utod n)
      = Outcome.continue st [Event.listing (viewReminders st.rems
          (fun t => isGreater (now.Add (((n : Int) + 1) * nsPerDay)) t))] := by
  obtain ⟨c, rest, hu, hc⟩ := utod_head_digit n
  have hat : Atoi (c :: rest) = ((n : Int), true) := hu ▸ Atoi_utod (by omega)
  have hd := thresholdDuration_small hn
  simp only [processCmd, processAdd, processRemoveQuit, HasPrefix, ascii_a, ascii_va, ascii_vt,
    ascii_vtp, ascii_h, ascii_r, ascii_q, hu]
  simp [ReplaceFirst, hat, hd]

theorem Time.Add_date (now : Time) (d : Int) (k : Nat)
    (hnow : validCal now.year now.month now.day)
    (hk : ((now.nsec : Int) + d + now.offsetChange d) / nsPerDay = (k : Int)) :
    (now.Add d).date = addDays now.date k := by
  have h := civilFromDays_add (now.year, now.month, now.day) hnow k
  simp only [Time.Add, Time.date, hk]
  exact h

theorem isGreater_of_date {t1 t2 : Time} (h : t1.date = t2.date) (t : Time) :
    isGreater t1 t = isGreater t2 t := by
  simp only [Time.date, Prod.mk.injEq] at h
  obtain ⟨hy, hm, hd⟩ := h
  simp [isGreater, hy, hm, hd]

theorem date_onDate (x : Int × Nat × Nat) : (onDate x).date = x := rfl

/-- Beyond the bound of the amended C3 the duration wraps around: `vt+106751`
lists nothing, although every reminder of the registry is due within days. -/
theorem vtPlus_wraps_at_106751 :
    processCmd id jan10 threeDays (ascii "vt+106751")
      = Outcome.continue threeDays [Event.listing []] := by
  decide

/-- With a clock change the bound moves: in New York on 2024-11-03 at 00:30
the clocks are set back at 02:00, the instant 24 hours later is still on
2024-11-03, and `vt+0` does not list a reminder due today. -/
theorem vtPlus_zero_new_york :
    (newYorkNov3.Add nsPerDay).date = (2024, 11, 3)
    ∧ processCmd id newYorkNov3
        { rems := [(0, { desc := ascii "x", at_ := { year := 2024, month := 11, day := 3, nsec := 0 } })],
          curIndex := 1, file := [] }
        (ascii "vt+0")
      = Outcome.continue
          { rems := [(0, { desc := ascii "x", at_ := { year := 2024, month := 11, day := 3, nsec := 0 } })],
            curIndex := 1, file := [] }
          [Event.listing []] := by
  refine ⟨by decide, by decide⟩

end Reminders

namespace Reminders

/-! ## The commands `a` and `r` -/

theorem parseReminder_error_of_count {s : Str} (h : s.count AT ≠ 1) :
    parseReminder s = Except.error invalidCommandFormat := by
  have hl : (Split s AT).length ≠ 2 := by
    rw [length_Split]
    omega
  unfold parseReminder
  split
  · rename_i d p heq
    rw [heq] at hl
    simp at hl
  · rfl

theorem parseReminder_error_of_date {d p : Str} (hd : AT ∉ d) (hp : AT ∉ p)
    (hpar : Parse p = none) :
    parseReminder (d ++ AT :: p) = Except.error invalidCommandFormat := by
  unfold parseReminder
  rw [Split_two hd hp]
  simp [hpar]

theorem processCmd_add_error (iter : RemMap → List (Int × Rem)) (now : Time) (st : State)
    (rest : Str) (h : parseReminder rest = Except.error invalidCommandFormat) :
    processCmd iter now st (ascii "a " ++ rest)
      = Outcome.continue st [Event.addError (ascii "a " ++ rest) invalidCommandFormat] := by
  simp only [processCmd, processAdd, processRemoveQuit, HasPrefix, addReminder, ascii_a,
    ascii_va, ascii_vt, ascii_vtp, ascii_h, ascii_r, ascii_q]
  simp [ReplaceFirst, h]

/-- C6: for every state and every command line `a ` followed by a text that
does not contain exactly one `@`, or that has one `@` followed by a text that is
not a valid M-D-YYYY date, `processCmd` reports the error "Invalid command
format" and returns to the loop with the registry, `curIndex` and the store
file exactly as before. -/
theorem add_rejected_state_unchanged (iter : RemMap → List (Int × Rem)) (now : Time)
    (st : State) (rest : Str)
    (h : rest.count AT ≠ 1
      ∨ ∃ d p, rest = d ++ AT :: p ∧ AT ∉ d ∧ AT ∉ p ∧ Parse p = none) :
    processCmd iter now st (ascii "a " ++ rest)
      = Outcome.continue st
          [Event.addError (ascii "a " ++ rest) (ascii "Invalid command format")] := by
  apply processCmd_add_error
  rcases h with h | ⟨d, p, rfl, hd, hp, hpar⟩
  · exact parseReminder_error_of_count h
  · exact parseReminder_error_of_date hd hp hpar

/-- Witness of C6: the command `a foo@13-40-2024` on the empty registry. -/
theorem add_rejected_state_unchanged_witness :
    (∃ d p, ascii "foo@13-40-2024" = d ++ AT :: p ∧ AT ∉ d ∧ AT ∉ p ∧ Parse p = none)
    ∧ processCmd id jan10 { rems := [], curIndex := 0, file := [] }
        (ascii "a " ++ ascii "foo@13-40-2024")
      = Outcome.continue { rems := [], curIndex := 0, file := [] }
          [Event.addError (ascii "a " ++ ascii "foo@13-40-2024")
            (ascii "Invalid command format")] :=
  ⟨⟨ascii "foo", ascii "13-40-2024", by decide, by decide, by decide, by decide⟩,
   add_rejected_state_unchanged id jan10 { rems := [], curIndex := 0, file := [] }
     (ascii "foo@13-40-2024")
     (Or.inr ⟨ascii "foo", ascii "13-40-2024", by decide, by decide, by decide, by decide⟩)⟩

theorem Atoi_digits {digits : Str} (hne : digits ≠ [])
    (hall : ∀ c ∈ digits, isDigitByte c = true)
    (hv : decimalValue digits < 9223372036854775808) :
    Atoi digits = ((decimalValue digits : Int), true) := by
  cases digits with
  | nil => exact absurd rfl hne
  | cons c rest =>
    have hc : isDigitByte c = true := hall c (by simp)
    have hc1 : ¬ c = 45 := by
      intro h45
      subst h45
      simp [isDigitByte] at hc
    have hc2 : ¬ c = 43 := by
      intro h43
      subst h43
      simp [isDigitByte] at hc
    have hall2 : (c :: rest).all isDigitByte = true := List.all_eq_true.mpr hall
    have hn : ¬ 9223372036854775808 ≤ decimalValue (c :: rest) := by omega
    unfold Atoi
    simp [DASH, hc1, hc2, hall2, hn]

theorem FindStringSubmatch_r_digits {digits : Str} (hne : digits ≠ [])
    (hall : ∀ c ∈ digits, isDigitByte c = true) :
    FindStringSubmatch (114 :: digits) = some digits := by
  cases digits with
  | nil => exact absurd rfl hne
  | cons c rest =>
    have hc : isDigitByte c = true := hall c (by simp)
    have ht : List.takeWhile isDigitByte (c :: rest) = c :: rest :=
      List.takeWhile_eq_self_iff.mpr hall
    simp [FindStringSubmatch, isDigit, hc, ht]

/-- C7: for every state and every command line `r` followed by one or more
digits that denote an id `k` in the range of `int`, `processCmd` does not
crash: it returns to the loop with entry `k` deleted from the registry, every
other entry and `curIndex` unchanged, and with the registry unchanged when `k`
was absent. -/
theorem remove_deletes_only_k (iter : RemMap → List (Int × Rem)) (now : Time) (st : State)
    (digits : Str) (hne : digits ≠ []) (hall : ∀ c ∈ digits, isDigitByte c = true)
    (hv : decimalValue digits < 9223372036854775808) :
    ∃ (st1 : State) (out : List Event),
      processCmd iter now st (ascii "r" ++ digits) = Outcome.continue st1 out
      ∧ st1.rems = RemMap.delete st.rems (decimalValue digits)
      ∧ st1.curIndex = st.curIndex
      ∧ RemMap.lookup st1.rems (decimalValue digits) = none
      ∧ (∀ j : Int, j ≠ (decimalValue digits : Int) →
          RemMap.lookup st1.rems j = RemMap.lookup st.rems j)
      ∧ (RemMap.lookup st.rems (decimalValue digits) = none → st1.rems = st.rems) := by
  have hf := FindStringSubmatch_r_digits hne hall
  have ha := Atoi_digits hne hall hv
  obtain ⟨c, rest, rfl⟩ : ∃ c rest, digits = c :: rest := by
    cases digits with
    | nil => exact absurd rfl hne
    | cons c rest => exact ⟨c, rest, rfl⟩
  refine ⟨saveAllReminders iter
      { st with rems := RemMap.delete st.rems (decimalValue (c :: rest)) },
    (removeReminder iter st (decimalValue (c :: rest))).2, ?_, rfl, rfl, ?_, ?_, ?_⟩
  · simp only [processCmd, processAdd, processRemoveQuit, HasPrefix, ascii_a,
      ascii_va, ascii_vt, ascii_vtp, ascii_h, ascii_r, ascii_q]
    simp [hf, ha, removeReminder]
  · exact RemMap.lookup_delete_self _ _
  · intro j hj
    exact RemMap.lookup_delete_ne _ hj
  · intro hnone
    exact RemMap.delete_of_not_mem (RemMap.lookup_eq_none_iff.mp hnone)

/-- Witness of C7: the command `r7` on the empty registry. -/
theorem remove_deletes_only_k_witness :
    ascii "7" ≠ [] ∧ (∀ c ∈ ascii "7", isDigitByte c = true)
    ∧ decimalValue (ascii "7") < 9223372036854775808
    ∧ processCmd id jan10 { rems := [], curIndex := 0, file := [] } (ascii "r" ++ ascii "7")
        = Outcome.continue { rems := [], curIndex := 0, file := [] } [Event.removed []]
    ∧ ∃ (st1 : State) (out : List Event),
        processCmd id jan10 { rems := [], curIndex := 0, file := [] } (ascii "r" ++ ascii "7")
          = Outcome.continue st1 out
        ∧ st1.rems = RemMap.delete [] (decimalValue (ascii "7")) :=
  ⟨by decide, by decide, by decide, by decide,
   (remove_deletes_only_k id jan10 { rems := [], curIndex := 0, file := [] } (ascii "7")
      (by decide) (by decide) (by decide)).imp
     (fun _ h => h.imp (fun _ h2 => ⟨h2.1, h2.2.1⟩))⟩

end Reminders

namespace Reminders

/-! ## Formatting a date and parsing it back -/

theorem appendInt_nat_zero (n : Nat) : appendInt (n : Int) 0 = utod n := by
  have h : ¬ ((n : Int) < 0) := by omega
  simp [appendInt, h]

theorem utod_two {n : Nat} (h1 : 10 ≤ n) (h2 : n < 100) :
    utod n = [48 + n / 10, 48 + n % 10] := by
  rw [utod_ge h1, utod_lt (by omega)]
  rfl

theorem utod_three {n : Nat} (h1 : 100 ≤ n) (h2 : n < 1000) :
    utod n = [48 + n / 10 / 10, 48 + n / 10 % 10, 48 + n % 10] := by
  rw [utod_ge (by omega), utod_two (by omega) (by omega)]
  rfl

theorem utod_four {n : Nat} (h1 : 1000 ≤ n) (h2 : n < 10000) :
    utod n = [48 + n / 10 / 10 / 10, 48 + n / 10 / 10 % 10, 48 + n / 10 % 10, 48 + n % 10] := by
  rw [utod_ge (by omega), utod_three (by omega) (by omega)]
  rfl

theorem appendInt_year {y : Nat} (h : y < 10000) :
    appendInt (y : Int) 4 = [48 + y / 1000, 48 + y / 100 % 10, 48 + y / 10 % 10, 48 + y % 10] := by
  have hneg : ¬ ((y : Int) < 0) := by omega
  simp only [appendInt, hneg, if_false, Int.natAbs_ofNat, List.nil_append]
  by_cases h1 : y < 10
  · rw [utod_lt h1]
    have e1 : y / 1000 = 0 := by omega
    have e2 : y / 100 % 10 = 0 := by omega
    have e3 : y / 10 % 10 = 0 := by omega
    have e4 : y % 10 = y := by omega
    simp [e1, e2, e3, e4, List.replicate]
  · by_cases h2 : y < 100
    · rw [utod_two (by omega) h2]
      have e1 : y / 1000 = 0 := by omega
      have e2 : y / 100 % 10 = 0 := by omega
      have e3 : y / 10 % 10 = y / 10 := by omega
      simp [e1, e2, e3, List.replicate]
    · by_cases h3 : y < 1000
      · rw [utod_three (by omega) h3]
        have e1 : y / 1000 = 0 := by omega
        have e2 : y / 100 % 10 = y / 10 / 10 := by omega
        simp [e1, e2, List.replicate]
      · rw [utod_four (by omega) h]
        have e1 : y / 1000 = y / 10 / 10 / 10 := by omega
        have e2 : y / 100 % 10 = y / 10 / 10 % 10 := by omega
        simp [e1, e2]

theorem getnum_utod_dash {n : Nat} (h : n < 100) (rest : Str) :
    getnum (utod n ++ DASH :: rest) = some (n, DASH :: rest) := by
  by_cases h1 : n < 10
  · rw [utod_lt h1]
    have hd : isDigitByte (48 + n) = true := by
      simp [isDigitByte]
      omega
    simp [getnum, isDigit, hd, isDigitByte, DASH]
    omega
  · rw [utod_two (by omega) h]
    have hd1 : isDigitByte (48 + n / 10) = true := by
      simp [isDigitByte]
      omega
    have hd2 : isDigitByte (48 + n % 10) = true := by
      simp [isDigitByte]
      omega
    simp [getnum, isDigit, hd1, hd2]
    omega

theorem daysIn_le (m : Nat) (y : Int) : daysIn m y ≤ 31 := by
  unfold daysIn
  split
  · split <;> omega
  · split <;> omega

theorem Parse_Format {t : Time} (h : isDate t) : Parse (Format t) = some t := by
  obtain ⟨hm1, hm2, hd1, hd2, hy1, hy2, hns, hcc⟩ := h
  obtain ⟨y, m, d, ns, cc⟩ := t
  simp only at hm1 hm2 hd1 hd2 hy1 hy2 hns hcc
  subst hns
  subst hcc
  obtain ⟨yn, rfl⟩ : ∃ yn : Nat, y = (yn : Int) := ⟨y.toNat, by omega⟩
  have hyn : yn < 10000 := by omega
  have hd3 : d ≤ 31 := le_trans hd2 (daysIn_le m _)
  have hF : Format { year := (yn : Int), month := m, day := d, nsec := 0 }
      = utod m ++ DASH :: (utod d ++ DASH ::
          [48 + yn / 1000, 48 + yn / 100 % 10, 48 + yn / 10 % 10, 48 + yn % 10]) := by
    simp [Format, appendInt_nat_zero, appendInt_year hyn]
  have hdig : ∀ k : Nat, k < 10 → isDigitByte (48 + k) = true := by
    intro k hk
    simp [isDigitByte]
    omega
  have hval : decimalValue [48 + yn / 1000, 48 + yn / 100 % 10, 48 + yn / 10 % 10, 48 + yn % 10]
      = yn := by
    simp [decimalValue]
    omega
  have hm0 : ¬ (m = 0 ∨ 12 < m) := by omega
  have hdd : ¬ (d < 1 ∨ d > daysIn m (yn : Int)) := by omega
  rw [hF]
  unfold Parse
  rw [getnum_utod_dash (by omega)]
  simp only [hm0, if_false, skipDash, if_true]
  rw [getnum_utod_dash (by omega)]
  simp only [skipDash, if_true]
  simp [isDigit, hdig, hval, hdd, Nat.div_lt_of_lt_mul, Nat.mod_lt]
  exact ⟨hdig _ (by omega), by omega, hd2⟩

end Reminders

namespace Reminders

/-! ## What `Parse` accepts -/

theorem getnum_some {s rest : Str} {n : Nat} (h : getnum s = some (n, rest)) :
    ∃ pre, s = pre ++ rest ∧ (∀ c ∈ pre, isDigitByte c = true) ∧ n < 100 := by
  have hb : ∀ c, isDigitByte c = true → c - 48 < 10 := by
    intro c hc
    simp [isDigitByte] at hc
    omega
  cases s with
  | nil => simp [getnum, isDigit] at h
  | cons a tl =>
    by_cases ha : isDigitByte a = true
    · cases tl with
      | nil =>
        simp [getnum, isDigit, ha] at h
        obtain ⟨rfl, rfl⟩ := h
        exact ⟨[a], by simp, by simpa using ha, by have := hb a ha; omega⟩
      | cons b tl2 =>
        by_cases hbd : isDigitByte b = true
        · simp [getnum, isDigit, ha, hbd] at h
          obtain ⟨rfl, rfl⟩ := h
          refine ⟨[a, b], by simp, ?_, ?_⟩
          · intro c hc
            simp at hc
            rcases hc with rfl | rfl
            · exact ha
            · exact hbd
          · have := hb a ha
            have := hb b hbd
            omega
        · simp [getnum, isDigit, ha, hbd] at h
          obtain ⟨rfl, rfl⟩ := h
          exact ⟨[a], by simp, by simpa using ha, by have := hb a ha; omega⟩
    · simp [getnum, isDigit, ha] at h

theorem skipDash_some {v rest : Str} (h : skipDash v = some rest) : v = DASH :: rest := by
  cases v with
  | nil => simp [skipDash] at h
  | cons c tl =>
    by_cases hc : c = DASH
    · simp [skipDash, hc] at h
      simp [hc, h]
    · simp [skipDash, hc] at h

theorem decimalValue_lt (s : Str) (hall : ∀ c ∈ s, isDigitByte c = true) :
    decimalValue s < 10 ^ s.length := by
  induction s using List.reverseRecOn with
  | nil => simp [decimalValue]
  | append_singleton l a ih =>
    have hl : ∀ c ∈ l, isDigitByte c = true := fun c hc => hall c (by simp [hc])
    have ha : isDigitByte a = true := hall a (by simp)
    have := ih hl
    rw [decimalValue_append, List.length_append, List.length_singleton, pow_succ]
    simp [isDigitByte] at ha
    omega

theorem Parse_some {p : Str} {t : Time} (h : Parse p = some t) :
    isDate t ∧ ∀ c ∈ p, isDigitByte c = true ∨ c = DASH := by
  unfold Parse at h
  cases hg1 : getnum p with
  | none => simp [hg1] at h
  | some r1 =>
    obtain ⟨month, v1⟩ := r1
    simp only [hg1] at h
    by_cases hm : month = 0 ∨ 12 < month
    · simp [hm] at h
    · simp only [hm, if_false] at h
      cases hs1 : skipDash v1 with
      | none => simp [hs1] at h
      | some v2 =>
        simp only [hs1] at h
        cases hg2 : getnum v2 with
        | none => simp [hg2] at h
        | some r2 =>
          obtain ⟨day, v3⟩ := r2
          simp only [hg2] at h
          cases hs2 : skipDash v3 with
          | none => simp [hs2] at h
          | some v4 =>
            simp only [hs2] at h
            split_ifs at h with c1 c2 c3 c4
            simp only [Option.some.injEq] at h
            subst h
            obtain ⟨pre1, hp1, hall1, _⟩ := getnum_some hg1
            obtain ⟨pre2, hp2, hall2, _⟩ := getnum_some hg2
            have e1 := skipDash_some hs1
            have e2 := skipDash_some hs2
            have hd4 : v4.drop 4 = [] := by simpa using c3
            have ht4 : v4.take 4 = v4 := by
              have := List.take_append_drop 4 v4
              rw [hd4, List.append_nil] at this
              exact this
            have hall4 : ∀ c ∈ v4, isDigitByte c = true := by
              have : (v4.take 4).all isDigitByte = true := by simpa using c2
              rw [ht4] at this
              exact List.all_eq_true.mp this
            have hlen : v4.length ≤ 4 := by
              have := List.length_take 4 v4
              rw [ht4] at this
              omega
            have hval := decimalValue_lt v4 hall4
            have hpow : 10 ^ v4.length ≤ 10 ^ 4 := Nat.pow_le_pow_right (by omega) hlen
            rw [ht4] at c4 ⊢
            refine ⟨?_, ?_⟩
            · unfold isDate
              dsimp only
              refine ⟨by omega, by omega, by omega, by omega, by omega, by omega, rfl, rfl⟩
            · intro c hc
              rw [hp1, e1, hp2, e2] at hc
              simp only [List.mem_append, List.mem_cons] at hc
              rcases hc with hc | rfl | hc | rfl | hc
              · exact Or.inl (hall1 c hc)
              · exact Or.inr rfl
              · exact Or.inl (hall2 c hc)
              · exact Or.inr rfl
              · exact Or.inl (hall4 c hc)

theorem Parse_some_not_mem {p : Str} {t : Time} (h : Parse p = some t) {c : Nat}
    (hc1 : isDigitByte c = false) (hc2 : c ≠ DASH) : c ∉ p := by
  intro hc
  rcases (Parse_some h).2 c hc with h1 | h1
  · rw [hc1] at h1
    exact Bool.false_ne_true h1
  · exact hc2 h1

end Reminders

namespace Reminders

/-! ## Adding a reminder -/

theorem parseReminder_ok {d p : Str} {t : Time} (hd : AT ∉ d) (hp : Parse p = some t) :
    parseReminder (d ++ AT :: p) = Except.ok (d, t) := by
  have hp2 : AT ∉ p := Parse_some_not_mem hp (by decide) (by decide)
  unfold parseReminder
  rw [Split_two hd hp2]
  simp [hp]

theorem processCmd_add_ok (iter : RemMap → List (Int × Rem)) (now : Time) (st : State)
    (rest d : Str) (t : Time) (h : parseReminder rest = Except.ok (d, t)) :
    processCmd iter now st (ascii "a " ++ rest)
      = Outcome.continue
          (saveAllReminders iter
            { st with rems := st.rems.set st.curIndex { desc := d, at_ := t },
                      curIndex := st.curIndex + 1 })
          [Event.saved] := by
  simp only [processCmd, processAdd, processRemoveQuit, HasPrefix, addReminder, ascii_a,
    ascii_va, ascii_vt, ascii_vtp, ascii_h, ascii_r, ascii_q]
  simp [ReplaceFirst, h]

/-- C5: for every state in which `curIndex` is not an id in use, every
description without `@` and every text that `Parse` accepts as the date `t`,
the command `a <description>@<text>` succeeds, and the listing with the
always-true predicate afterwards has a row with exactly that description and
the date `t`, and still has every row it had before. -/
theorem add_then_list_all (iter : RemMap → List (Int × Rem)) (now : Time) (st : State)
    (desc dstr : Str) (t : Time) (hfresh : st.curIndex ∉ RemMap.keys st.rems)
    (hd : AT ∉ desc)
    (hp : Parse dstr = some t) :
    ∃ st1 : State,
      processCmd iter now st (ascii "a " ++ (desc ++ AT :: dstr))
        = Outcome.continue st1 [Event.saved]
      ∧ (st.curIndex, { desc := desc, at_ := t }) ∈ viewReminders st1.rems (fun _ => true)
      ∧ ∀ e ∈ viewReminders st.rems (fun _ => true),
          e ∈ viewReminders st1.rems (fun _ => true) := by
  refine ⟨_, processCmd_add_ok iter now st _ desc t (parseReminder_ok hd hp), ?_, ?_⟩
  · rw [mem_viewReminders]
    exact ⟨RemMap.lookup_set_self _ _ _, rfl⟩
  · rintro ⟨i, r⟩ he
    rw [mem_viewReminders] at he ⊢
    refine ⟨?_, he.2⟩
    have hk : i ∈ RemMap.keys st.rems := by
      by_contra hn
      rw [← RemMap.lookup_eq_none_iff] at hn
      rw [hn] at he
      exact Option.noConfusion he.1
    have hne : i ≠ st.curIndex := fun e => hfresh (e ▸ hk)
    show RemMap.lookup (RemMap.set st.rems st.curIndex _) i = some r
    rw [RemMap.lookup_set_ne _ _ hne]
    exact he.1

/-- Witness of C5: `a foo@3-9-2025` on a registry of three reminders. -/
theorem add_then_list_all_witness :
    threeDays.curIndex ∉ RemMap.keys threeDays.rems ∧ AT ∉ ascii "foo"
    ∧ Parse (ascii "3-9-2025") = some { year := 2025, month := 3, day := 9, nsec := 0 }
    ∧ ∃ st1 : State,
      processCmd id jan10 threeDays (ascii "a " ++ (ascii "foo" ++ AT :: ascii "3-9-2025"))
        = Outcome.continue st1 [Event.saved]
      ∧ (threeDays.curIndex,
          { desc := ascii "foo", at_ := { year := 2025, month := 3, day := 9, nsec := 0 } })
          ∈ viewReminders st1.rems (fun _ => true)
      ∧ ∀ e ∈ viewReminders threeDays.rems (fun _ => true),
          e ∈ viewReminders st1.rems (fun _ => true) :=
  ⟨by decide, by decide, by decide,
   add_then_list_all id jan10 threeDays (ascii "foo") (ascii "3-9-2025")
     { year := 2025, month := 3, day := 9, nsec := 0 } (by decide) (by decide) (by decide)⟩

end Reminders

namespace Reminders

/-! ## Loading -/

theorem numbered_append (rs : List Rem) (r : Rem) :
    numbered (rs ++ [r]) = (((numbered rs).length : Int), r) :: numbered rs := by
  simp [numbered, List.foldl_append]

theorem length_numbered (rs : List Rem) : (numbered rs).length = rs.length := by
  induction rs using List.reverseRecOn with
  | nil => rfl
  | append_singleton l a ih => simp [numbered_append, ih]

theorem keys_numbered (rs : List Rem) :
    ∀ k ∈ RemMap.keys (numbered rs), 0 ≤ k ∧ k < (rs.length : Int) := by
  induction rs using List.reverseRecOn with
  | nil => simp [numbered, RemMap.keys]
  | append_singleton l a ih =>
    intro k hk
    rw [numbered_append, length_numbered] at hk
    simp only [RemMap.keys, List.map_cons, List.mem_cons] at hk
    rw [List.length_append, List.length_singleton]
    rcases hk with rfl | hk
    · omega
    · have := ih k hk
      omega

theorem WF_numbered (rs : List Rem) : RemMap.WF (numbered rs) := by
  induction rs using List.reverseRecOn with
  | nil => simp [numbered, RemMap.WF, RemMap.keys]
  | append_singleton l a ih =>
    rw [numbered_append, length_numbered]
    unfold RemMap.WF RemMap.keys
    simp only [List.map_cons, List.nodup_cons]
    refine ⟨?_, ih⟩
    intro hk
    have := keys_numbered l _ hk
    omega

theorem lookup_numbered (rs : List Rem) (i : Nat) :
    RemMap.lookup (numbered rs) (i : Int) = rs[i]? := by
  induction rs using List.reverseRecOn with
  | nil => simp [numbered, RemMap.lookup]
  | append_singleton l a ih =>
    rw [numbered_append, length_numbered]
    by_cases hi : i = l.length
    · subst hi
      simp [RemMap.lookup]
    · have hne : ¬ ((l.length : Int) = (i : Int)) := by omega
      simp only [RemMap.lookup, hne, if_false, ih]
      by_cases hlt : i < l.length
      · rw [List.getElem?_append_left hlt]
      · rw [List.getElem?_eq_none (by omega), List.getElem?_eq_none (by simp; omega)]

theorem lookup_numbered_neg (rs : List Rem) {k : Int} (hk : k < 0) :
    RemMap.lookup (numbered rs) k = none := by
  rw [RemMap.lookup_eq_none_iff]
  intro hmem
  have := keys_numbered rs k hmem
  omega

theorem map_snd_numbered (rs : List Rem) : (numbered rs).map Prod.snd = rs.reverse := by
  induction rs using List.reverseRecOn with
  | nil => rfl
  | append_singleton l a ih => simp [numbered_append, ih]

theorem set_numbered (rs : List Rem) (r : Rem) :
    RemMap.set (numbered rs) (rs.length : Int) r = numbered (rs ++ [r]) := by
  rw [numbered_append, length_numbered]
  unfold RemMap.set
  rw [RemMap.delete_of_not_mem]
  intro hk
  have := keys_numbered rs _ hk
  omega

theorem loadLine_fst (now : Time) (acc : State × Bool × List Event) (line : Str) :
    (loadLine now acc line).1 =
      match parseLine line with
      | some r =>
        if isGreater now r.at_ then acc.1
        else { acc.1 with rems := acc.1.rems.set acc.1.curIndex r,
                          curIndex := acc.1.curIndex + 1 }
      | none => acc.1 := by
  unfold loadLine parseLine
  split
  · rename_i d p heq
    cases hp : Parse p with
    | none => simp
    | some t =>
      cases hg : isGreater now t <;> simp [hg]
  · rfl

theorem loadLine_snd (now : Time) (acc : State × Bool × List Event) (line : Str) :
    (loadLine now acc line).2.1 =
      match parseLine line with
      | some r => if isGreater now r.at_ then true else acc.2.1
      | none => acc.2.1 := by
  unfold loadLine parseLine
  split
  · rename_i d p heq
    cases hp : Parse p with
    | none => simp
    | some t =>
      cases hg : isGreater now t <;> simp [hg]
  · rfl

theorem loadLines_append (now : Time) (st : State) (l : List Str) (a : Str) :
    loadLines now st (l ++ [a]) = loadLine now (loadLines now st l) a := by
  simp [loadLines, List.foldl_append]

theorem loadLines_empty (now : Time) (file : Str) (lines : List Str) :
    (loadLines now { rems := [], curIndex := 0, file := file } lines).1
        = { rems := numbered (keptReminders now lines),
            curIndex := ((keptReminders now lines).length : Int), file := file }
    ∧ (loadLines now { rems := [], curIndex := 0, file := file } lines).2.1
        = expiredFound now lines := by
  induction lines using List.reverseRecOn with
  | nil => exact ⟨rfl, rfl⟩
  | append_singleton l a ih =>
    obtain ⟨ih1, ih2⟩ := ih
    rw [loadLines_append, loadLine_fst, loadLine_snd, ih1, ih2]
    cases hp : parseLine a with
    | none =>
      simp [keptReminders, expiredFound, List.filterMap_append, hp]
    | some r =>
      cases hg : isGreater now r.at_
      · constructor
        · simp only [keptReminders, List.filterMap_append, List.filterMap_cons, hp,
            List.filterMap_nil, List.filter_append, List.filter_cons, hg, Bool.not_false,
            if_true, List.filter_nil, Bool.false_eq_true, if_false]
          rw [set_numbered]
          simp
        · simp [expiredFound, List.filterMap_append, hp, hg]
      · constructor
        · simp [keptReminders, List.filterMap_append, hp, hg]
        · simp [expiredFound, List.filterMap_append, hp, hg]

end Reminders

namespace Reminders

/-! ## Saving, then loading -/

theorem serialize_foldl (acc : Str) (order : List (Int × Rem)) :
    order.foldl (fun lines e => lines ++ remLine e.2) acc = acc ++ serialize order := by
  induction order generalizing acc with
  | nil => simp [serialize]
  | cons e rest ih =>
    simp only [serialize, List.foldl_cons, List.nil_append]
    rw [ih (acc ++ remLine e.2), ih (remLine e.2)]
    simp [serialize]

theorem serialize_cons (e : Int × Rem) (rest : List (Int × Rem)) :
    serialize (e :: rest) = lineOf e.2 ++ NL :: serialize rest := by
  have h := serialize_foldl (remLine e.2) rest
  simp only [serialize, List.foldl_cons, List.nil_append] at h ⊢
  rw [h]
  simp [remLine, lineOf, serialize]

theorem cutLine_append {l : Str} (h : NL ∉ l) (rest : Str) :
    cutLine (l ++ NL :: rest) = (l, some rest) := by
  induction l with
  | nil => simp [cutLine]
  | cons c tl ih =>
    have hc : ¬ c = NL := fun e => h (by simp [e])
    have ht : NL ∉ tl := fun e => h (List.mem_cons_of_mem _ e)
    simp [cutLine, hc, ih ht]

theorem Format_eq {t : Time} (h : isDate t) :
    ∃ y : Nat, Format t = utod t.month ++ DASH :: (utod t.day ++ DASH ::
        [48 + y / 1000, 48 + y / 100 % 10, 48 + y / 10 % 10, 48 + y % 10]) := by
  obtain ⟨_, _, _, _, hy1, hy2, _, _⟩ := h
  obtain ⟨yn, hyn⟩ : ∃ yn : Nat, t.year = (yn : Int) := ⟨t.year.toNat, by omega⟩
  refine ⟨yn, ?_⟩
  have hlt : yn < 10000 := by omega
  simp [Format, hyn, appendInt_nat_zero, appendInt_year hlt]

theorem Format_not_mem {t : Time} (h : isDate t) {c : Nat}
    (hc1 : isDigitByte c = false) (hc2 : c ≠ DASH) : c ∉ Format t :=
  Parse_some_not_mem (Parse_Format h) hc1 hc2

theorem dropCR_lineOf {r : Rem} (h : isDate r.at_) : dropCR (lineOf r) = lineOf r := by
  obtain ⟨y, hy⟩ := Format_eq h
  have hsplit : lineOf r = (r.desc ++ TAB :: (utod r.at_.month ++ DASH ::
      (utod r.at_.day ++ [DASH, 48 + y / 1000, 48 + y / 100 % 10, 48 + y / 10 % 10])))
      ++ [48 + y % 10] := by
    simp [lineOf, hy]
  have hlast : (lineOf r).getLast? = some (48 + y % 10) := by
    rw [hsplit]
    exact List.getLast?_concat _
  unfold dropCR
  rw [hlast]
  have : ¬ (48 + y % 10 = CR) := by
    unfold CR
    omega
  simp [this]

theorem NL_not_mem_lineOf {r : Rem} (hd : NL ∉ r.desc) (h : isDate r.at_) :
    NL ∉ lineOf r := by
  unfold lineOf
  simp only [List.mem_append, List.mem_singleton, not_or]
  exact ⟨⟨hd, by decide⟩, Format_not_mem h (by decide) (by decide)⟩

theorem parseLine_lineOf {r : Rem} (hd : TAB ∉ r.desc) (h : isDate r.at_) :
    parseLine (lineOf r) = some r := by
  have hf : TAB ∉ Format r.at_ := Format_not_mem h (by decide) (by decide)
  have e : lineOf r = r.desc ++ TAB :: Format r.at_ := by simp [lineOf]
  unfold parseLine
  rw [e, Split_two hd hf]
  simp [Parse_Format h]

theorem scanLinesAux_serialize (order : List (Int × Rem))
    (hs : ∀ e ∈ order, Storable e.2) :
    ∀ fuel, (serialize order).length ≤ fuel →
      scanLinesAux fuel (serialize order) = order.map (fun e => lineOf e.2) := by
  induction order with
  | nil =>
    intro fuel _
    cases fuel <;> simp [serialize, scanLinesAux]
  | cons e rest ih =>
    intro fuel hfuel
    obtain ⟨_, hnl, hlen, hdate⟩ := hs e (by simp)
    have hrest : ∀ x ∈ rest, Storable x.2 := fun x hx => hs x (List.mem_cons_of_mem _ hx)
    rw [serialize_cons] at hfuel ⊢
    have hlen2 : (lineOf e.2 ++ NL :: serialize rest).length
        = (lineOf e.2).length + 1 + (serialize rest).length := by
      simp
      omega
    obtain ⟨f, rfl⟩ : ∃ f, fuel = f + 1 := ⟨fuel - 1, by omega⟩
    have hne : (lineOf e.2 ++ NL :: serialize rest).isEmpty = false := by
      cases lineOf e.2 <;> rfl
    have hnot : ¬ ((lineOf e.2).length ≥ maxScanTokenSize) := by omega
    simp only [scanLinesAux, hne, Bool.false_eq_true, if_false,
      cutLine_append (NL_not_mem_lineOf hnl hdate), hnot, dropCR_lineOf hdate, List.map_cons]
    rw [ih hrest f (by omega)]

theorem scanLines_serialize (order : List (Int × Rem)) (hs : ∀ e ∈ order, Storable e.2) :
    scanLines (serialize order) = order.map (fun e => lineOf e.2) :=
  scanLinesAux_serialize order hs _ (le_refl _)

theorem filterMap_parseLine_lineOf (order : List (Int × Rem))
    (hs : ∀ e ∈ order, Storable e.2) :
    (order.map (fun e => lineOf e.2)).filterMap parseLine = order.map Prod.snd := by
  induction order with
  | nil => rfl
  | cons e rest ih =>
    obtain ⟨htab, _, _, hdate⟩ := hs e (by simp)
    have hrest : ∀ x ∈ rest, Storable x.2 := fun x hx => hs x (List.mem_cons_of_mem _ hx)
    simp [List.filterMap_cons, parseLine_lineOf htab hdate, ih hrest]

theorem writeAt0_of_le {old data : Str} (h : old.length ≤ data.length) :
    writeAt0 old data = data := by
  simp [writeAt0, List.drop_eq_nil_of_le h]

end Reminders

namespace Reminders

/-! ## The scanner -/

theorem cutLine_length (data : Str) :
    ∀ rest, (cutLine data).2 = some rest →
      (cutLine data).1.length + 1 + rest.length = data.length := by
  induction data with
  | nil => simp [cutLine]
  | cons c tl ih =>
    intro rest h
    by_cases hc : c = NL
    · simp [cutLine, hc] at h ⊢
      subst h
      omega
    · simp only [cutLine, hc, if_false] at h ⊢
      have := ih rest h
      simp only [List.length_cons]
      omega

theorem scanLinesAux_fuel_aux (n : Nat) :
    ∀ data : Str, data.length = n →
      ∀ fuel, data.length ≤ fuel → scanLinesAux fuel data = scanLines data := by
  induction n using Nat.strong_induction_on with
  | _ n ih =>
    intro data hn fuel hfuel
    cases data with
    | nil => cases fuel <;> simp [scanLines, scanLinesAux]
    | cons c tl =>
      obtain ⟨f, rfl⟩ : ∃ f, fuel = f + 1 := ⟨fuel - 1, by simp at hfuel; omega⟩
      have hlen : (c :: tl).length = tl.length + 1 := rfl
      simp only [scanLines, hlen, scanLinesAux, List.isEmpty_cons, Bool.false_eq_true, if_false]
      split
      · rfl
      · cases h2 : (cutLine (c :: tl)).2 with
        | none => rfl
        | some rest =>
          have hl := cutLine_length (c :: tl) rest h2
          have hr : rest.length < n := by omega
          simp only
          rw [ih rest.length hr rest rfl f (by omega),
            ih rest.length hr rest rfl tl.length (by simp at hl; omega)]

theorem scanLinesAux_fuel (data : Str) (fuel : Nat) (h : data.length ≤ fuel) :
    scanLinesAux fuel data = scanLines data :=
  scanLinesAux_fuel_aux data.length data rfl fuel h

theorem scanLines_too_long {l : Str} (h : NL ∉ l) (hlen : maxScanTokenSize ≤ l.length)
    (rest : Str) : scanLines (l ++ NL :: rest) = [] := by
  have hne : (l ++ NL :: rest).length = (l.length + rest.length) + 1 := by
    simp
    omega
  unfold scanLines
  rw [hne]
  have hemp : (l ++ NL :: rest).isEmpty = false := by
    cases l <;> rfl
  simp [scanLinesAux, hemp, cutLine_append h, hlen]

end Reminders

namespace Reminders

/-! ## The scanner and the lines of the file -/

theorem cutLine_none (data : Str) (h : (cutLine data).2 = none) :
    (cutLine data).1 = data ∧ Split data NL = [data] := by
  induction data with
  | nil => simp [cutLine, Split]
  | cons c tl ih =>
    by_cases hc : c = NL
    · simp [cutLine, hc] at h
    · simp only [cutLine, hc, if_false] at h ⊢
      obtain ⟨h1, h2⟩ := ih h
      simp [h1, Split, hc, h2]

theorem cutLine_some (data rest : Str) (h : (cutLine data).2 = some rest) :
    Split data NL = (cutLine data).1 :: Split rest NL := by
  induction data with
  | nil => simp [cutLine] at h
  | cons c tl ih =>
    by_cases hc : c = NL
    · simp only [cutLine, hc, if_true, Option.some.injEq] at h ⊢
      subst h
      simp [Split]
    · simp only [cutLine, hc, if_false] at h ⊢
      simp [Split, hc, ih h]

theorem scanLines_nil : scanLines [] = [] := rfl

theorem scanLines_cons (c : Nat) (tl : Str) :
    scanLines (c :: tl) =
      if (cutLine (c :: tl)).1.length ≥ maxScanTokenSize then []
      else
        match (cutLine (c :: tl)).2 with
        | some rest => dropCR (cutLine (c :: tl)).1 :: scanLines rest
        | none => [dropCR (cutLine (c :: tl)).1] := by
  have hlen : (c :: tl).length = tl.length + 1 := rfl
  simp only [scanLines, hlen, scanLinesAux, List.isEmpty_cons, Bool.false_eq_true, if_false]
  split
  · rfl
  · cases h2 : (cutLine (c :: tl)).2 with
    | none => rfl
    | some rest =>
      have hl := cutLine_length (c :: tl) rest h2
      simp only
      rw [scanLinesAux_fuel rest tl.length (by simp at hl; omega)]
      rfl

theorem fileLines_nil : fileLines [] = [] := by
  simp [fileLines, Split]

theorem fileLines_of_none (data : Str) (hne : data ≠ []) (h : (cutLine data).2 = none) :
    fileLines data = [dropCR data] := by
  have hS := (cutLine_none data h).2
  unfold fileLines
  rw [hS]
  simp [hne]

theorem fileLines_of_some (data rest : Str) (h : (cutLine data).2 = some rest) :
    fileLines data = dropCR (cutLine data).1 :: fileLines rest := by
  have hS := cutLine_some data rest h
  have hne := Split_ne_nil rest NL
  unfold fileLines
  rw [hS]
  cases hr : Split rest NL with
  | nil => exact absurd hr hne
  | cons p ps =>
    simp only [List.getLast?_cons_cons, List.dropLast_cons₂]
    split <;> simp

theorem scanLines_eq_fileLines_aux (n : Nat) :
    ∀ file : Str, file.length = n → shortLines file → scanLines file = fileLines file := by
  induction n using Nat.strong_induction_on with
  | _ n ih =>
    intro file hn hshort
    cases file with
    | nil => rw [scanLines_nil, fileLines_nil]
    | cons c tl =>
      rw [scanLines_cons]
      cases h2 : (cutLine (c :: tl)).2 with
      | none =>
        obtain ⟨h1, hS⟩ := cutLine_none (c :: tl) h2
        have hlt : ¬ ((cutLine (c :: tl)).1.length ≥ maxScanTokenSize) := by
          have := hshort (c :: tl) (by rw [hS]; simp)
          rw [h1]
          omega
        simp only [hlt, if_false]
        rw [fileLines_of_none (c :: tl) (by simp) h2, h1]
      | some rest =>
        have hS := cutLine_some (c :: tl) rest h2
        have hlt : ¬ ((cutLine (c :: tl)).1.length ≥ maxScanTokenSize) := by
          have := hshort (cutLine (c :: tl)).1 (by rw [hS]; simp)
          omega
        have hrest : shortLines rest := by
          intro l hl
          exact hshort l (by rw [hS]; exact List.mem_cons_of_mem _ hl)
        have hl := cutLine_length (c :: tl) rest h2
        simp only [hlt, if_false]
        rw [fileLines_of_some (c :: tl) rest h2,
          ih rest.length (by rw [← hn, ← hl]; omega) rest rfl hrest]

theorem scanLines_eq_fileLines (file : Str) (h : shortLines file) :
    scanLines file = fileLines file :=
  scanLines_eq_fileLines_aux file.length file rfl h

end Reminders

namespace Reminders

/-- C1 at the failing input: the store file holds an expired line followed by
a future line.  The start of `main` loads the future reminder alone and saves;
the serialization of the registry is the future line, but the file afterwards
is that line followed by the second line of the old content, because the file
is written from offset 0 without being cut. -/
theorem startup_keeps_old_bytes :
    (startup id jan10 staleThenFuture).rems
      = [(0, { desc := ascii "new", at_ := { year := 2030, month := 1, day := 1, nsec := 0 } })]
    ∧ serialize (startup id jan10 staleThenFuture).rems = ascii "new\t1-1-2030\n"
    ∧ (startup id jan10 staleThenFuture).file = ascii "new\t1-1-2030\nnew\t1-1-2030\n"
    ∧ (startup id jan10 staleThenFuture).file
        ≠ serialize (startup id jan10 staleThenFuture).rems := by
  refine ⟨by decide, by decide, by decide, by decide⟩

/-- The same defect after a removal: with the one reminder of the registry
removed by `r0`, nothing is written and the file still holds its line. -/
theorem remove_leaves_line_in_file :
    processCmd id jan10
        { rems := [(0, { desc := ascii "new", at_ := { year := 2030, month := 1, day := 1, nsec := 0 } })],
          curIndex := 1, file := ascii "new\t1-1-2030\n" }
        (ascii "r0")
      = Outcome.continue { rems := [], curIndex := 1, file := ascii "new\t1-1-2030\n" }
          [Event.removed (ascii "new")] := by
  decide

/-- C2 as the specification states it fails: a registry whose one reminder is
due after today and has a tab in its description is saved to an empty file as
a line of three fields, which `loadReminders` skips, so the registry loaded
back is empty. -/
theorem roundtrip_loses_tabbed_description :
    (∀ e ∈ tabbed.rems, isGreater jan10 e.2.at_ = false)
    ∧ (saveAllReminders id tabbed).file = ascii "a\tb\t1-1-2030\n"
    ∧ (loadReminders jan10
        { rems := [], curIndex := 0, file := (saveAllReminders id tabbed).file }).1.rems = []
    ∧ ¬ ((loadReminders jan10
          { rems := [], curIndex := 0, file := (saveAllReminders id tabbed).file }).1.rems.map
            Prod.snd).Perm (tabbed.rems.map Prod.snd) := by
  have h3 : (loadReminders jan10
      { rems := [], curIndex := 0, file := (saveAllReminders id tabbed).file }).1.rems = [] := by
    decide
  refine ⟨by decide, by decide, h3, ?_⟩
  rw [h3]
  simp [tabbed]

/-- C2, amended: for every registry whose reminders each have a description
without tab and newline, a line shorter than the scanner's buffer, and a date
as `Parse` returns it that is not strictly before today, and for a store file
that is not longer than the new serialization, `saveAllReminders` followed by
`loadReminders` into the empty registry gives the same multiset of reminders,
whatever the order of the lines and the ids, and reports no expired
reminder. -/
theorem save_load_roundtrip (iter : RemMap → List (Int × Rem)) (now : Time) (st : State)
    (hperm : (iter st.rems).Perm st.rems)
    (hs : ∀ e ∈ st.rems, Storable e.2 ∧ isGreater now e.2.at_ = false)
    (hfile : st.file.length ≤ (serialize (iter st.rems)).length) :
    ((loadReminders now
        { rems := [], curIndex := 0, file := (saveAllReminders iter st).file }).1.rems.map
          Prod.snd).Perm (st.rems.map Prod.snd)
    ∧ (loadReminders now
        { rems := [], curIndex := 0, file := (saveAllReminders iter st).file }).2.1 = false := by
  have hfileEq : (saveAllReminders iter st).file = serialize (iter st.rems) :=
    writeAt0_of_le hfile
  have hs2 : ∀ e ∈ iter st.rems, Storable e.2 :=
    fun e he => (hs e (hperm.mem_iff.mp he)).1
  have hg : ∀ r ∈ (iter st.rems).map Prod.snd, isGreater now r.at_ = false := by
    intro r hr
    obtain ⟨e, he, rfl⟩ := List.mem_map.mp hr
    exact (hs e (hperm.mem_iff.mp he)).2
  obtain ⟨h1, h2⟩ := loadLines_empty now (serialize (iter st.rems))
    (scanLines (serialize (iter st.rems)))
  have hwf : (scanLines (serialize (iter st.rems))).filterMap parseLine
      = (iter st.rems).map Prod.snd := by
    rw [scanLines_serialize _ hs2, filterMap_parseLine_lineOf _ hs2]
  have hkept : keptReminders now (scanLines (serialize (iter st.rems)))
      = (iter st.rems).map Prod.snd := by
    unfold keptReminders
    rw [hwf, List.filter_eq_self]
    intro r hr
    simp [hg r hr]
  have hexp : expiredFound now (scanLines (serialize (iter st.rems))) = false := by
    unfold expiredFound
    rw [hwf, List.any_eq_false]
    intro r hr
    simp [hg r hr]
  rw [hfileEq]
  constructor
  · show ((loadLines now _ _).1.rems.map Prod.snd).Perm _
    rw [h1, hkept]
    show ((numbered _).map Prod.snd).Perm _
    rw [map_snd_numbered]
    exact (List.reverse_perm _).trans (hperm.map _)
  · show (loadLines now _ _).2.1 = false
    rw [h2, hexp]

/-- Witness of the amended C2: the registry of three reminders, saved over a
file of the same length. -/
theorem save_load_roundtrip_witness :
    (id threeDays.rems).Perm threeDays.rems
    ∧ (∀ e ∈ threeDays.rems, Storable e.2 ∧ isGreater jan10 e.2.at_ = false)
    ∧ threeDays.file.length ≤ (serialize (id threeDays.rems)).length
    ∧ ((loadReminders jan10
        { rems := [], curIndex := 0, file := (saveAllReminders id threeDays).file }).1.rems.map
          Prod.snd).Perm (threeDays.rems.map Prod.snd) :=
  ⟨List.Perm.refl _, by decide, by decide,
   (save_load_roundtrip id jan10 threeDays (List.Perm.refl _) (by decide) (by decide)).1⟩

end Reminders

namespace Reminders

/-! ## What `loadReminders` keeps -/

theorem scanLines_longThenGood : scanLines longThenGood = [] := by
  have hnl : NL ∉ List.replicate 65536 120 := by
    intro h
    have := (List.mem_replicate.mp h).2
    exact absurd this (by decide)
  have hlen : maxScanTokenSize ≤ (List.replicate 65536 120).length := by
    rw [List.length_replicate]
    exact le_refl _
  exact scanLines_too_long hnl hlen (ascii "new\t1-1-2030\n")

theorem fileLines_long_then (l : Str) (hnl : NL ∉ l) :
    fileLines (l ++ ascii "\nnew\t1-1-2030\n") = [dropCR l, ascii "new\t1-1-2030"] := by
  have hS : Split (l ++ ascii "\nnew\t1-1-2030\n") NL
      = l :: Split (ascii "new\t1-1-2030\n") NL :=
    Split_append_cons hnl (ascii "new\t1-1-2030\n")
  have hS2 : Split (ascii "new\t1-1-2030\n") NL = [ascii "new\t1-1-2030", []] := by decide
  have hd : dropCR (ascii "new\t1-1-2030") = ascii "new\t1-1-2030" := by decide
  unfold fileLines
  rw [hS, hS2]
  simp [hd]

theorem loadReminders_eq (now : Time) (rems : RemMap) (cur : Int) (file : Str) :
    (loadReminders now { rems := rems, curIndex := cur, file := file }).1
        = (loadLines now { rems := rems, curIndex := cur, file := file } (scanLines file)).1
    ∧ (loadReminders now { rems := rems, curIndex := cur, file := file }).2.1
        = (loadLines now { rems := rems, curIndex := cur, file := file } (scanLines file)).2.1 :=
  ⟨rfl, rfl⟩

theorem loadLines_nil (now : Time) (st : State) : loadLines now st [] = (st, false, []) := rfl

/-- A line that ends in `\r\n` is read without the `\r`: the reminder of a
file in that form is loaded. -/
theorem loadReminders_crlf :
    fileLines (ascii "new\t1-1-2030\r\n") = [ascii "new\t1-1-2030"]
    ∧ (loadReminders jan10
        { rems := [], curIndex := 0, file := ascii "new\t1-1-2030\r\n" }).1.rems
      = [(0, { desc := ascii "new", at_ := { year := 2030, month := 1, day := 1, nsec := 0 } })] := by
  refine ⟨by decide, by decide⟩

end Reminders

namespace Reminders

/-! ## Ids stay below `curIndex` -/

theorem IdsBelow_fresh {st : State} (h : State.IdsBelow st) :
    st.curIndex ∉ RemMap.keys st.rems := by
  intro hk
  have := (h.2 _ hk).2
  omega

theorem keys_delete_subset (m : RemMap) (k : Int) :
    ∀ i ∈ RemMap.keys (RemMap.delete m k), i ∈ RemMap.keys m := by
  intro i hi
  simp only [RemMap.keys, RemMap.delete, List.mem_map, List.mem_filter] at hi ⊢
  obtain ⟨e, ⟨he, _⟩, rfl⟩ := hi
  exact ⟨e, he, rfl⟩

theorem IdsBelow_set {st : State} (h : State.IdsBelow st) (r : Rem) :
    State.IdsBelow
      { st with rems := st.rems.set st.curIndex r, curIndex := st.curIndex + 1 } := by
  obtain ⟨h0, hk⟩ := h
  refine ⟨by show 0 ≤ st.curIndex + 1; omega, ?_⟩
  intro i hi
  show 0 ≤ i ∧ i < st.curIndex + 1
  simp only [RemMap.keys, RemMap.set, List.map_cons, List.mem_cons] at hi
  rcases hi with rfl | hi
  · omega
  · have := hk i (keys_delete_subset _ _ i hi)
    omega

theorem IdsBelow_delete {st : State} (h : State.IdsBelow st) (k : Int) :
    State.IdsBelow { st with rems := st.rems.delete k } :=
  ⟨h.1, fun i hi => h.2 i (keys_delete_subset _ _ i hi)⟩

theorem IdsBelow_save (iter : RemMap → List (Int × Rem)) {st : State}
    (h : State.IdsBelow st) : State.IdsBelow (saveAllReminders iter st) := h

theorem IdsBelow_startup (iter : RemMap → List (Int × Rem)) (now : Time) (file : Str) :
    State.IdsBelow (startup iter now file) := by
  have h1 := (loadLines_empty now file (scanLines file)).1
  have hload : State.IdsBelow
      (loadReminders now { rems := [], curIndex := 0, file := file }).1 := by
    show State.IdsBelow (loadLines now _ _).1
    rw [h1]
    exact ⟨by show (0 : Int) ≤ ((keptReminders now (scanLines file)).length : Int); omega,
      keys_numbered _⟩
  unfold startup
  dsimp only
  split
  · exact IdsBelow_save iter hload
  · exact hload

theorem IdsBelow_processAdd (iter : RemMap → List (Int × Rem)) {st : State}
    (h : State.IdsBelow st) (cmd : Str) :
    State.IdsBelow (processAdd iter st cmd).1
      ∧ st.curIndex ≤ (processAdd iter st cmd).1.curIndex := by
  unfold processAdd
  split
  · unfold addReminder
    split
    · rename_i st1 heq
      split at heq
      · exact absurd heq (by simp)
      · rename_i ds ts _
        simp only [Except.ok.injEq] at heq
        subst heq
        refine ⟨IdsBelow_save iter (IdsBelow_set h _), ?_⟩
        show st.curIndex ≤ st.curIndex + 1
        omega
    · exact ⟨h, le_refl _⟩
  · exact ⟨h, le_refl _⟩

theorem IdsBelow_processRemoveQuit (iter : RemMap → List (Int × Rem)) {st st1 : State}
    (h : State.IdsBelow st) (out out1 : List Event) (cmd : Str)
    (hr : processRemoveQuit iter st out cmd = Outcome.continue st1 out1) :
    State.IdsBelow st1 ∧ st.curIndex = st1.curIndex := by
  unfold processRemoveQuit at hr
  split at hr
  · split at hr
    · exact absurd hr (by simp)
    · split at hr
      · exact absurd hr (by simp)
      · simp only [Outcome.continue.injEq] at hr
        obtain ⟨rfl, _⟩ := hr
        exact ⟨IdsBelow_save iter (IdsBelow_delete h _), rfl⟩
  · split at hr
    · exact absurd hr (by simp)
    · simp only [Outcome.continue.injEq] at hr
      obtain ⟨rfl, _⟩ := hr
      exact ⟨h, rfl⟩

theorem IdsBelow_processCmd (iter : RemMap → List (Int × Rem)) (now : Time) {st st1 : State}
    (h : State.IdsBelow st) (cmd : Str) (out : List Event)
    (hr : processCmd iter now st cmd = Outcome.continue st1 out) :
    State.IdsBelow st1 ∧ st.curIndex ≤ st1.curIndex := by
  obtain ⟨ha, hle⟩ := IdsBelow_processAdd iter h cmd
  unfold processCmd at hr
  simp only at hr
  split at hr
  · simp only [Outcome.continue.injEq] at hr
    obtain ⟨rfl, _⟩ := hr
    exact ⟨ha, hle⟩
  · obtain ⟨h1, h2⟩ := IdsBelow_processRemoveQuit iter ha _ _ cmd hr
    exact ⟨h1, by omega⟩

end Reminders

namespace Reminders

/-! ## Lines that are no command -/

/-- C11: for every state and every input line that does not start with `a `,
`vt+` or `r` and is none of `va`, `vt`, `h`, `q`, `processCmd` returns to the
loop having printed nothing, with the registry, `curIndex` and the store file
unchanged. -/
theorem unrecognized_line_ignored (iter : RemMap → List (Int × Rem)) (now : Time)
    (st : State) (cmd : Str)
    (ha : HasPrefix cmd (ascii "a ") = false) (hv : HasPrefix cmd (ascii "vt+") = false)
    (hr : HasPrefix cmd (ascii "r") = false)
    (h1 : cmd ≠ ascii "va") (h2 : cmd ≠ ascii "vt") (h3 : cmd ≠ ascii "h")
    (h4 : cmd ≠ ascii "q") :
    processCmd iter now st cmd = Outcome.continue st [] := by
  simp [processCmd, processAdd, processRemoveQuit, ha, hv, hr, h1, h2, h3, h4]

/-- Witness of C11: the line `list` on the registry of three reminders. -/
theorem unrecognized_line_ignored_witness :
    HasPrefix (ascii "list") (ascii "a ") = false
    ∧ HasPrefix (ascii "list") (ascii "vt+") = false
    ∧ HasPrefix (ascii "list") (ascii "r") = false
    ∧ ascii "list" ≠ ascii "va" ∧ ascii "list" ≠ ascii "vt"
    ∧ ascii "list" ≠ ascii "h" ∧ ascii "list" ≠ ascii "q"
    ∧ processCmd id jan10 threeDays (ascii "list") = Outcome.continue threeDays [] :=
  ⟨by decide, by decide, by decide, by decide, by decide, by decide, by decide,
   unrecognized_line_ignored id jan10 threeDays (ascii "list")
     (by decide) (by decide) (by decide) (by decide) (by decide) (by decide) (by decide)⟩

end Reminders

namespace Reminders

/-! ## The command `r` and its pattern -/

theorem FindStringSubmatch_none_of_no_digit {s : Str}
    (h : ∀ c ∈ s, isDigitByte c = false) : FindStringSubmatch s = none := by
  induction s with
  | nil => rfl
  | cons c rest ih =>
    have hrest : ∀ x ∈ rest, isDigitByte x = false := fun x hx => h x (List.mem_cons_of_mem _ hx)
    have hd : isDigit rest 0 = false := by
      cases rest with
      | nil => rfl
      | cons b tl => simpa [isDigit] using hrest b (by simp)
    simp [FindStringSubmatch, hd, ih hrest]

theorem processCmd_r (iter : RemMap → List (Int × Rem)) (now : Time) (st : State)
    (rest : Str) :
    processCmd iter now st (ascii "r" ++ rest) =
      match FindStringSubmatch (ascii "r" ++ rest) with
      | none => Outcome.crash []
      | some digits =>
        Outcome.continue (removeReminder iter st (Atoi digits).1).1
          (removeReminder iter st (Atoi digits).1).2 := by
  simp only [processCmd, processAdd, processRemoveQuit, HasPrefix, ascii_a,
    ascii_va, ascii_vt, ascii_vtp, ascii_h, ascii_r, ascii_q]
  cases FindStringSubmatch ([114] ++ rest) <;> simp

/-- C13: for every state and every input line that begins with `r` and has no
digit after it, such as the bare line `r`, `processCmd` stops on a run-time
panic: the pattern matches nowhere and element 1 of the empty match is read;
nothing is printed before. -/
theorem r_without_digits_crashes (iter : RemMap → List (Int × Rem)) (now : Time)
    (st : State) (rest : Str) (h : ∀ c ∈ rest, isDigitByte c = false) :
    processCmd iter now st (ascii "r" ++ rest) = Outcome.crash [] := by
  have hall : ∀ c ∈ ascii "r" ++ rest, isDigitByte c = false := by
    intro c hc
    rw [ascii_r] at hc
    simp only [List.singleton_append, List.mem_cons] at hc
    rcases hc with rfl | hc
    · decide
    · exact h c hc
  rw [processCmd_r, FindStringSubmatch_none_of_no_digit hall]

/-- Witness of C13: the bare line `r` on the registry of three reminders. -/
theorem r_without_digits_crashes_witness :
    (∀ c ∈ ([] : Str), isDigitByte c = false)
    ∧ processCmd id jan10 threeDays (ascii "r" ++ []) = Outcome.crash [] :=
  ⟨by decide, r_without_digits_crashes id jan10 threeDays [] (by decide)⟩

end Reminders

namespace Reminders

/-! ## Which id the command `r` removes -/

theorem rDigitAt_succ (c : Nat) (rest : Str) (k : Nat) :
    rDigitAt (c :: rest) (k + 1) ↔ rDigitAt rest k := by
  simp [rDigitAt, isDigit]

theorem rDigitAt_zero (c : Nat) (rest : Str) :
    rDigitAt (c :: rest) 0 ↔ (c = 114 ∧ isDigit rest 0 = true) := by
  simp [rDigitAt, isDigit]

theorem FindStringSubmatch_leftmost (s : Str) :
    ∀ i, rDigitAt s i → (∀ j, j < i → ¬ rDigitAt s j) →
      FindStringSubmatch s = some ((s.drop (i + 1)).takeWhile isDigitByte) := by
  induction s with
  | nil =>
    intro i hi
    simp [rDigitAt] at hi
  | cons c rest ih =>
    intro i hi hleft
    cases i with
    | zero =>
      have h0 := (rDigitAt_zero c rest).mp hi
      simp [FindStringSubmatch, h0.1, h0.2]
    | succ k =>
      have h0 : ¬ (c = 114 ∧ isDigit rest 0 = true) :=
        fun h => hleft 0 (Nat.succ_pos k) ((rDigitAt_zero c rest).mpr h)
      have hk := (rDigitAt_succ c rest k).mp hi
      have hl : ∀ j, j < k → ¬ rDigitAt rest j :=
        fun j hj h => hleft (j + 1) (Nat.succ_lt_succ hj) ((rDigitAt_succ c rest j).mpr h)
      simp only [FindStringSubmatch, h0, if_false]
      rw [ih k hk hl]
      rfl

theorem digitRun_ne_nil {s : Str} {i : Nat} (h : isDigit s (i + 1) = true) :
    (s.drop (i + 1)).takeWhile isDigitByte ≠ [] := by
  simp only [isDigit, List.get?_eq_getElem?] at h
  cases hg : s[i + 1]? with
  | none => simp [hg] at h
  | some c =>
    rw [hg] at h
    have hd : s.drop (i + 1) = c :: s.drop (i + 1 + 1) := by
      obtain ⟨hlt, hc⟩ := List.getElem?_eq_some_iff.mp hg
      rw [← hc]
      exact List.drop_eq_getElem_cons hlt
    rw [hd]
    simp only at h
    simp [List.takeWhile, h]

theorem digitRun_all (l : Str) : ∀ c ∈ l.takeWhile isDigitByte, isDigitByte c = true :=
  fun _ hc => List.mem_takeWhile_imp hc

theorem Atoi_digits_large {digits : Str} (hne : digits ≠ [])
    (hall : ∀ c ∈ digits, isDigitByte c = true)
    (hv : 9223372036854775808 ≤ decimalValue digits) :
    Atoi digits = (maxInt, false) := by
  cases digits with
  | nil => exact absurd rfl hne
  | cons c rest =>
    have hc : isDigitByte c = true := hall c (by simp)
    have hc1 : ¬ c = 45 := by
      intro h45
      subst h45
      simp [isDigitByte] at hc
    have hc2 : ¬ c = 43 := by
      intro h43
      subst h43
      simp [isDigitByte] at hc
    have hall2 : (c :: rest).all isDigitByte = true := List.all_eq_true.mpr hall
    unfold Atoi
    simp [DASH, hc1, hc2, hall2, hv]

end Reminders

namespace Reminders

/-! ## When the command `r` crashes -/

theorem FindStringSubmatch_eq_none_iff (s : Str) :
    FindStringSubmatch s = none ↔ ∀ i, ¬ rDigitAt s i := by
  induction s with
  | nil => simp [FindStringSubmatch, rDigitAt]
  | cons c rest ih =>
    by_cases h0 : c = 114 ∧ isDigit rest 0 = true
    · constructor
      · intro h
        simp [FindStringSubmatch, h0.1, h0.2] at h
      · intro h
        exact absurd ((rDigitAt_zero c rest).mpr h0) (h 0)
    · simp only [FindStringSubmatch, h0, if_false]
      rw [ih]
      constructor
      · intro h i
        cases i with
        | zero => exact fun hi => h0 ((rDigitAt_zero c rest).mp hi)
        | succ k => exact fun hi => h k ((rDigitAt_succ c rest k).mp hi)
      · intro h i hi
        exact h (i + 1) ((rDigitAt_succ c rest i).mpr hi)

/-- A line that begins with `r` makes `processCmd` crash exactly when no `r`
of the line is directly followed by a digit. -/
theorem processCmd_r_crash_iff (iter : RemMap → List (Int × Rem)) (now : Time) (st : State)
    (rest : Str) :
    processCmd iter now st (ascii "r" ++ rest) = Outcome.crash []
      ↔ ∀ i, ¬ rDigitAt (ascii "r" ++ rest) i := by
  rw [processCmd_r, ← FindStringSubmatch_eq_none_iff]
  cases FindStringSubmatch (ascii "r" ++ rest) <;> simp

end Reminders

namespace Reminders

/-- C15 as stated fails for a digit run that denotes a number above the
largest `int`: the line `r9223372036854775808` has its leftmost `r` followed by
a digit at position 0 and the digit run denotes 9223372036854775808, but
`strconv.Atoi` returns 9223372036854775807 with an error that is dropped, and
that is the id given to `removeReminder`. -/
theorem r_id_is_maxInt_above_range :
    rDigitAt (ascii "r9223372036854775808") 0
    ∧ decimalValue (List.takeWhile isDigitByte (List.drop 1 (ascii "r9223372036854775808")))
        = 9223372036854775808
    ∧ removedId (ascii "r9223372036854775808") = some 9223372036854775807
    ∧ processCmd id jan10 threeDays (ascii "r9223372036854775808")
        = Outcome.continue (removeReminder id threeDays 9223372036854775807).1
            (removeReminder id threeDays 9223372036854775807).2 := by
  refine ⟨by decide, by decide, by decide, by decide⟩

/-- C15, amended: for every state and every input line that begins with `r`
and has somewhere an `r` directly followed by a digit, let the digit run be the
longest run of digits after the leftmost such `r`.  When the run denotes a
number of the `int` range, `processCmd` removes the reminder with that number
as id; when it denotes a larger number, the id removed is the largest `int`,
9223372036854775807. -/
theorem r_removes_leftmost_digit_run (iter : RemMap → List (Int × Rem)) (now : Time)
    (st : State) (rest : Str) (i : Nat)
    (hi : rDigitAt (ascii "r" ++ rest) i)
    (hleft : ∀ j, j < i → ¬ rDigitAt (ascii "r" ++ rest) j) :
    (decimalValue (List.takeWhile isDigitByte (List.drop (i + 1) (ascii "r" ++ rest)))
        < 9223372036854775808 →
      removedId (ascii "r" ++ rest)
          = some ((decimalValue
              (List.takeWhile isDigitByte (List.drop (i + 1) (ascii "r" ++ rest))) : Nat) : Int)
      ∧ processCmd iter now st (ascii "r" ++ rest)
          = Outcome.continue
              (removeReminder iter st ((decimalValue
                (List.takeWhile isDigitByte (List.drop (i + 1) (ascii "r" ++ rest))) : Nat) : Int)).1
              (removeReminder iter st ((decimalValue
                (List.takeWhile isDigitByte (List.drop (i + 1) (ascii "r" ++ rest))) : Nat) : Int)).2)
    ∧ (9223372036854775808
        ≤ decimalValue (List.takeWhile isDigitByte (List.drop (i + 1) (ascii "r" ++ rest))) →
      removedId (ascii "r" ++ rest) = some 9223372036854775807
      ∧ processCmd iter now st (ascii "r" ++ rest)
          = Outcome.continue (removeReminder iter st 9223372036854775807).1
              (removeReminder iter st 9223372036854775807).2) := by
  have hf := FindStringSubmatch_leftmost _ i hi hleft
  have hne := digitRun_ne_nil hi.2
  have hall := digitRun_all (List.drop (i + 1) (ascii "r" ++ rest))
  constructor
  · intro hv
    have ha := Atoi_digits hne hall hv
    refine ⟨by simp [removedId, hf, ha], ?_⟩
    rw [processCmd_r, hf]
    simp only [ha]
  · intro hv
    have ha := Atoi_digits_large hne hall hv
    refine ⟨by simp [removedId, hf, ha, maxInt], ?_⟩
    rw [processCmd_r, hf]
    simp only [ha, maxInt]

/-- Witness of the amended C15: the line `rar5` removes id 5, and the line
`r12abc` removes id 12. -/
theorem r_removes_leftmost_digit_run_witness :
    rDigitAt (ascii "r" ++ ascii "ar5") 2
    ∧ (∀ j, j < 2 → ¬ rDigitAt (ascii "r" ++ ascii "ar5") j)
    ∧ removedId (ascii "r" ++ ascii "ar5") = some 5
    ∧ processCmd id jan10 threeDays (ascii "r" ++ ascii "ar5")
        = Outcome.continue (removeReminder id threeDays 5).1 (removeReminder id threeDays 5).2
    ∧ rDigitAt (ascii "r" ++ ascii "12abc") 0
    ∧ removedId (ascii "r" ++ ascii "12abc") = some 12 :=
  ⟨by decide, by decide,
   ((r_removes_leftmost_digit_run id jan10 threeDays (ascii "ar5") 2 (by decide) (by decide)).1
      (by decide)).1,
   ((r_removes_leftmost_digit_run id jan10 threeDays (ascii "ar5") 2 (by decide) (by decide)).1
      (by decide)).2,
   by decide,
   ((r_removes_leftmost_digit_run id jan10 threeDays (ascii "12abc") 0 (by decide)
      (by decide)).1 (by decide)).1⟩

end Reminders

namespace Reminders

/-! ## Malformed lines of the store file -/

theorem loadDiagnostics_singleton (line : Str) :
    loadDiagnostics [line] =
      match Split line TAB with
      | [_, dateStr] => if Parse dateStr = none then [Event.loadError dateStr] else []
      | _ => [] := by
  unfold loadDiagnostics
  simp only [List.filterMap_cons, List.filterMap_nil]
  cases hS : Split line TAB with
  | nil => rfl
  | cons d t1 =>
    cases t1 with
    | nil => rfl
    | cons p t2 =>
      cases t2 with
      | nil =>
        cases hp : Parse p with
        | none => simp [hp]
        | some t => simp [hp]
      | cons x t3 => rfl

theorem loadLine_events (now : Time) (acc : State × Bool × List Event) (line : Str) :
    (loadLine now acc line).2.2 = acc.2.2 ++ loadDiagnostics [line] := by
  rw [loadDiagnostics_singleton]
  unfold loadLine
  cases hS : Split line TAB with
  | nil => simp
  | cons d t1 =>
    cases t1 with
    | nil => simp
    | cons p t2 =>
      cases t2 with
      | nil =>
        cases hp : Parse p with
        | none => simp [hp]
        | some t =>
          cases hg : isGreater now t <;> simp [hp, hg]
      | cons x t3 => simp

theorem loadDiagnostics_append (l1 l2 : List Str) :
    loadDiagnostics (l1 ++ l2) = loadDiagnostics l1 ++ loadDiagnostics l2 := by
  simp [loadDiagnostics, List.filterMap_append]

theorem foldl_loadLine_events (now : Time) (lines : List Str) :
    ∀ acc : State × Bool × List Event,
      (lines.foldl (loadLine now) acc).2.2 = acc.2.2 ++ loadDiagnostics lines := by
  induction lines with
  | nil => simp [loadDiagnostics]
  | cons l rest ih =>
    intro acc
    rw [List.foldl_cons, ih, loadLine_events, List.append_assoc, ← loadDiagnostics_append]
    rfl

theorem loadLines_events (now : Time) (st : State) (lines : List Str) :
    (loadLines now st lines).2.2 = loadDiagnostics lines := by
  unfold loadLines
  rw [foldl_loadLine_events]
  rfl

theorem foldl_loadLine_congr (now : Time) (lines : List Str) :
    ∀ acc acc2 : State × Bool × List Event, acc.1 = acc2.1 → acc.2.1 = acc2.2.1 →
      (lines.foldl (loadLine now) acc).1 = (lines.foldl (loadLine now) acc2).1
      ∧ (lines.foldl (loadLine now) acc).2.1 = (lines.foldl (loadLine now) acc2).2.1 := by
  induction lines with
  | nil =>
    intro acc acc2 h1 h2
    exact ⟨h1, h2⟩
  | cons l rest ih =>
    intro acc acc2 h1 h2
    rw [List.foldl_cons, List.foldl_cons]
    apply ih
    · rw [loadLine_fst, loadLine_fst, h1]
    · rw [loadLine_snd, loadLine_snd, h2]

theorem loadLine_malformed (now : Time) (acc : State × Bool × List Event) (line : Str)
    (h : parseLine line = none) :
    (loadLine now acc line).1 = acc.1 ∧ (loadLine now acc line).2.1 = acc.2.1 := by
  rw [loadLine_fst, loadLine_snd, h]
  exact ⟨rfl, rfl⟩

end Reminders

namespace Reminders

/-- C14 as stated fails: the line `garbage` has one field, so it is
malformed; `loadReminders` skips it and loads the line after it, but prints no
diagnostic for it, only the final count. -/
theorem one_field_line_not_reported :
    parseLine (ascii "garbage") = none
    ∧ scanLines (ascii "garbage\nnew\t1-1-2030\n") = [ascii "garbage", ascii "new\t1-1-2030"]
    ∧ (loadReminders jan10
        { rems := [], curIndex := 0, file := ascii "garbage\nnew\t1-1-2030\n" }).1.rems
        = [(0, { desc := ascii "new", at_ := { year := 2030, month := 1, day := 1, nsec := 0 } })]
    ∧ (loadReminders jan10
        { rems := [], curIndex := 0, file := ascii "garbage\nnew\t1-1-2030\n" }).2.2
        = [Event.loaded 1] := by
  refine ⟨by decide, by decide, by decide, by decide⟩

theorem loadLines_malformed_skipped (now : Time) (st : State) (pre post : List Str)
    (line : Str) (hbad : parseLine line = none) :
    (loadLines now st (pre ++ line :: post)).1 = (loadLines now st (pre ++ post)).1
    ∧ (loadLines now st (pre ++ line :: post)).2.1 = (loadLines now st (pre ++ post)).2.1
    ∧ (loadLines now st (pre ++ line :: post)).2.2
        = loadDiagnostics pre ++ loadDiagnostics [line] ++ loadDiagnostics post := by
  have hskip := loadLine_malformed now (pre.foldl (loadLine now) (st, false, [])) line hbad
  have hcongr := foldl_loadLine_congr now post
    (loadLine now (pre.foldl (loadLine now) (st, false, [])) line)
    (pre.foldl (loadLine now) (st, false, [])) hskip.1 hskip.2
  refine ⟨?_, ?_, ?_⟩
  · simpa [loadLines, List.foldl_append] using hcongr.1
  · simpa [loadLines, List.foldl_append] using hcongr.2
  · rw [loadLines_events, loadDiagnostics_append]
    have : line :: post = [line] ++ post := rfl
    rw [this, loadDiagnostics_append, List.append_assoc]

theorem loadReminders_events (now : Time) (st : State) :
    (loadReminders now st).1 = (loadLines now st (scanLines st.file)).1
    ∧ (loadReminders now st).2.1 = (loadLines now st (scanLines st.file)).2.1
    ∧ (loadReminders now st).2.2
        = (loadLines now st (scanLines st.file)).2.2
            ++ [Event.loaded (loadReminders now st).1.rems.length] :=
  ⟨rfl, rfl, rfl⟩

/-- C14, amended: for every store file whose lines are each shorter than 65536
bytes, a malformed line of the file is skipped by `loadReminders`: the
registry, `curIndex` and the returned flag come out as the loop gives them on
the other lines alone, so the lines after it are processed.  A diagnostic is
printed for it exactly when it has two tab-separated fields (the second is then
not a valid date, and the diagnostic shows that field); a line with another
number of fields is skipped without a diagnostic. -/
theorem malformed_line_skipped (now : Time) (st : State) (pre post : List Str) (line : Str)
    (hshort : shortLines st.file) (hlines : fileLines st.file = pre ++ line :: post)
    (hbad : parseLine line = none) :
    (loadReminders now st).1 = (loadLines now st (pre ++ post)).1
    ∧ (loadReminders now st).2.1 = (loadLines now st (pre ++ post)).2.1
    ∧ (loadReminders now st).2.2
        = loadDiagnostics pre ++ loadDiagnostics [line] ++ loadDiagnostics post
            ++ [Event.loaded (loadLines now st (pre ++ post)).1.rems.length]
    ∧ (∀ d p : Str, Split line TAB = [d, p] → loadDiagnostics [line] = [Event.loadError p])
    ∧ ((Split line TAB).length ≠ 2 → loadDiagnostics [line] = []) := by
  obtain ⟨e1, e2, e3⟩ := loadReminders_events now st
  obtain ⟨k1, k2, k3⟩ := loadLines_malformed_skipped now st pre post line hbad
  have hscan : scanLines st.file = pre ++ line :: post := by
    rw [scanLines_eq_fileLines st.file hshort, hlines]
  rw [hscan] at e1 e2 e3
  refine ⟨e1.trans k1, e2.trans k2, ?_, ?_, ?_⟩
  · rw [e3, k3, e1, k1]
  · intro d p hS
    have hp : Parse p = none := by
      unfold parseLine at hbad
      rw [hS] at hbad
      simpa using hbad
    rw [loadDiagnostics_singleton, hS]
    simp [hp]
  · intro hlen
    rw [loadDiagnostics_singleton]
    split
    · rename_i d p heq
      rw [heq] at hlen
      exact absurd rfl hlen
    · rfl

/-- Witness of the amended C14: a file whose first line has the date
`13-40-2024` and whose second line is good; the good line is loaded under id 0
and one diagnostic is printed, for the first line. -/
theorem malformed_line_skipped_witness :
    shortLines (ascii "bad\t13-40-2024\nnew\t1-1-2030\n")
    ∧ fileLines (ascii "bad\t13-40-2024\nnew\t1-1-2030\n")
        = [] ++ ascii "bad\t13-40-2024" :: [ascii "new\t1-1-2030"]
    ∧ parseLine (ascii "bad\t13-40-2024") = none
    ∧ (loadReminders jan10
        { rems := [], curIndex := 0, file := ascii "bad\t13-40-2024\nnew\t1-1-2030\n" }).1.rems
        = [(0, { desc := ascii "new", at_ := { year := 2030, month := 1, day := 1, nsec := 0 } })]
    ∧ (loadReminders jan10
        { rems := [], curIndex := 0, file := ascii "bad\t13-40-2024\nnew\t1-1-2030\n" }).2.2
        = [Event.loadError (ascii "13-40-2024"), Event.loaded 1]
    ∧ (loadReminders jan10
        { rems := [], curIndex := 0, file := ascii "bad\t13-40-2024\nnew\t1-1-2030\n" }).1
        = (loadLines jan10
            { rems := [], curIndex := 0, file := ascii "bad\t13-40-2024\nnew\t1-1-2030\n" }
            ([] ++ [ascii "new\t1-1-2030"])).1 :=
  ⟨by decide, by decide, by decide, by decide, by decide,
   (malformed_line_skipped jan10
      { rems := [], curIndex := 0, file := ascii "bad\t13-40-2024\nnew\t1-1-2030\n" } []
      [ascii "new\t1-1-2030"] (ascii "bad\t13-40-2024") (by decide) (by decide) (by decide)).1⟩

end Reminders

namespace Reminders

/-! ## Ids in a session -/

theorem runLoop_ids (steps : List Step) :
    ∀ st : State, State.IdsBelow st →
      (∀ s ∈ runLoop st steps, State.IdsBelow s ∧ st.curIndex ≤ s.curIndex)
      ∧ (runLoop st steps).Pairwise (fun s t =>
          s.curIndex ≤ t.curIndex ∧ ∀ i ∈ RemMap.keys s.rems, i < t.curIndex) := by
  induction steps with
  | nil =>
    intro st _
    simp [runLoop]
  | cons x rest ih =>
    intro st hst
    unfold runLoop
    cases hp : processCmd x.iter x.now st x.cmd with
    | exit code out => simp
    | crash out => simp
    | «continue» st1 out =>
      obtain ⟨h1, hle⟩ := IdsBelow_processCmd x.iter x.now hst x.cmd out hp
      obtain ⟨hall, hpw⟩ := ih st1 h1
      simp only
      constructor
      · intro s hs
        rcases List.mem_cons.mp hs with rfl | hs
        · exact ⟨h1, hle⟩
        · have := hall s hs
          exact ⟨this.1, le_trans hle this.2⟩
      · refine List.Pairwise.cons ?_ hpw
        intro s hs
        have := hall s hs
        refine ⟨this.2, fun i hi => ?_⟩
        have := (h1.2 i hi).2
        omega

theorem addReminder_ok {st st1 : State} {cmd : Str} (h : addReminder st cmd = Except.ok st1) :
    ∃ r : Rem, st1 = { st with rems := st.rems.set st.curIndex r,
                               curIndex := st.curIndex + 1 } := by
  unfold addReminder at h
  split at h
  · exact absurd h (by simp)
  · rename_i ds ts _
    simp only [Except.ok.injEq] at h
    exact ⟨{ desc := ds, at_ := ts }, h.symm⟩

/-- A session on the file with a stale and a future line: the start of `main`,
an addition, and the removal of id 0; `curIndex` is 1, then 2, then 2. -/
theorem session_example :
    (session id jan10 staleThenFuture
        [{ iter := id, now := jan10, cmd := ascii "a foo@3-9-2025" },
         { iter := id, now := jan10, cmd := ascii "r0" }]).map
      (fun s => (RemMap.keys s.rems, s.curIndex))
      = [([0], 1), ([1, 0], 2), ([1], 2)] := by
  decide

/-- C12: in every session, that is after the start of `main` on any store file
and after any sequence of commands, every id of the registry is at least 0 and
below `curIndex`; from a state of the session to any later one `curIndex` does
not decrease and stays above every id the earlier state held.  Hence a
successful `addReminder` in a state of the session stores the new reminder
under `curIndex`, an id that is not in use, leaves the reminder of every other
id as it was, and adds 1 to `curIndex`. -/
theorem session_ids_unique (iter : RemMap → List (Int × Rem)) (now : Time) (file : Str)
    (steps : List Step) :
    (∀ s ∈ session iter now file steps, State.IdsBelow s)
    ∧ (session iter now file steps).Pairwise (fun s t =>
        s.curIndex ≤ t.curIndex ∧ ∀ i ∈ RemMap.keys s.rems, i < t.curIndex)
    ∧ ∀ s ∈ session iter now file steps, ∀ (cmd : Str) (st1 : State),
        addReminder s cmd = Except.ok st1 →
          s.curIndex ∉ RemMap.keys s.rems
          ∧ st1.curIndex = s.curIndex + 1
          ∧ (∃ r : Rem, RemMap.lookup st1.rems s.curIndex = some r)
          ∧ ∀ j : Int, j ≠ s.curIndex → RemMap.lookup st1.rems j = RemMap.lookup s.rems j := by
  have h0 := IdsBelow_startup iter now file
  obtain ⟨hall, hpw⟩ := runLoop_ids steps (startup iter now file) h0
  have hinv : ∀ s ∈ session iter now file steps, State.IdsBelow s := by
    intro s hs
    rcases List.mem_cons.mp hs with rfl | hs
    · exact h0
    · exact (hall s hs).1
  refine ⟨hinv, ?_, ?_⟩
  · refine List.Pairwise.cons ?_ hpw
    intro s hs
    have := hall s hs
    refine ⟨this.2, fun i hi => ?_⟩
    have := (h0.2 i hi).2
    omega
  · intro s hs cmd st1 hadd
    obtain ⟨r, rfl⟩ := addReminder_ok hadd
    exact ⟨IdsBelow_fresh (hinv s hs), rfl, ⟨r, RemMap.lookup_set_self _ _ _⟩,
      fun j hj => RemMap.lookup_set_ne _ _ hj⟩

end Reminders
